import Mathlib

/-! Wireframe 3D pipeline (`main.c++`): shallow embedding and verified properties.

The C++ program computes with `float`.  The embedding is written over an arbitrary
linearly ordered field `K` with a floor function, so the same definitions can be
evaluated over `ℚ` (exact arithmetic, executable) and reasoned about over `ℝ`
(where the library functions `tanf`, `cosf`, `sinf` are the real ones).  The `libm`
functions and the constant `M_PI` are not part of the program text; the builders
that call them take them as parameters.  C `int` values are modelled as unbounded
integers.
-/

namespace Wireframe

/-! ## Numeric conversions -/

/-- The C conversion `(int)q` of a floating value: truncation toward zero. -/
def toInt {K : Type} [LinearOrderedField K] [FloorRing K] (q : K) : Int :=
  if 0 ≤ q then ⌊q⌋ else ⌈q⌉

/-- The C library function `roundf` followed by the cast to `int`, as in
`(int)roundf(x)`: nearest integer, halfway cases away from zero. -/
def roundf {K : Type} [LinearOrderedField K] [FloorRing K] (q : K) : Int :=
  if 0 ≤ q then ⌊q + 1 / 2⌋ else ⌈q - 1 / 2⌉

/-! ## Line rasterizer -/

/-- The body of the `for(int i=0;i<=steps;i++)` loop of `drawLineDDA`: the first
argument is the number of iterations still to run; each iteration emits
`((int)roundf(x), (int)roundf(y))` and then performs `x += xInc; y += yInc`. -/
def ddaLoop {K : Type} [LinearOrderedField K] [FloorRing K] (xInc yInc : K) :
    Nat → K → K → List (Int × Int)
  | 0, _, _ => []
  | n + 1, x, y => (roundf x, roundf y) :: ddaLoop xInc yInc n (x + xInc) (y + yInc)

/-- The function `drawLineDDA(x0,y0,x1,y1)`: the list of points passed to
`glVertex2i`, in emission order. -/
def drawLineDDA (K : Type) [LinearOrderedField K] [FloorRing K]
    (x0 y0 x1 y1 : Int) : List (Int × Int) :=
  let dx := x1 - x0
  let dy := y1 - y0
  let steps := max |dx| |dy|
  if steps = 0 then [(x0, y0)]
  else
    let xInc : K := (dx : K) / (steps : K)
    let yInc : K := (dy : K) / (steps : K)
    ddaLoop xInc yInc (steps.toNat + 1) (x0 : K) (y0 : K)

/-- The closed form the specification gives for the rasterizer: a single point
when `steps = 0`, otherwise the `steps+1` points
`(round(x0 + i*dx/steps), round(y0 + i*dy/steps))`, `i = 0..steps`. -/
def ddaClosedForm (K : Type) [LinearOrderedField K] [FloorRing K]
    (x0 y0 x1 y1 : Int) : List (Int × Int) :=
  let dx := x1 - x0
  let dy := y1 - y0
  let steps := max |dx| |dy|
  if steps = 0 then [(x0, y0)]
  else (List.range (steps.toNat + 1)).map fun i : Nat =>
    (roundf ((x0 : K) + (i : K) * (dx : K) / (steps : K)),
     roundf ((y0 : K) + (i : K) * (dy : K) / (steps : K)))

/-! ## Vectors and matrices -/

/-- The C++ `struct Vec4`. -/
structure Vec4 (K : Type) where
  x : K
  y : K
  z : K
  w : K

/-- The C++ `makeVec(x,y,z)`: a point, with `w = 1`. -/
def makeVec {K : Type} [LinearOrderedField K] (x y z : K) : Vec4 K := ⟨x, y, z, 1⟩

/-- The C++ `struct Mat4`: the array `m[4][4]`, row index first. -/
structure Mat4 (K : Type) where
  m : Fin 4 → Fin 4 → K

namespace Mat4
variable {K : Type} [LinearOrderedField K]

/-- The constructor `Mat4()`, which clears all sixteen entries (`memset`). -/
def zero : Mat4 K := ⟨fun _ _ => 0⟩

/-- The assignment `M.m[i][j] = v`. -/
def set (M : Mat4 K) (i j : Fin 4) (v : K) : Mat4 K :=
  ⟨fun a b => if a = i ∧ b = j then v else M.m a b⟩

/-- The C++ `Mat4::identity()`: a cleared matrix whose diagonal is then set to 1. -/
def identity : Mat4 K :=
  (((zero.set 0 0 1).set 1 1 1).set 2 2 1).set 3 3 1

/-- The C++ `Mat4::operator*(const Mat4&)`: entry `(i,j)` accumulates
`m[i][k] * other.m[k][j]` for `k = 0..3`, starting from `0`. -/
def mul (A B : Mat4 K) : Mat4 K :=
  ⟨fun i j => (((0 + A.m i 0 * B.m 0 j) + A.m i 1 * B.m 1 j) + A.m i 2 * B.m 2 j)
    + A.m i 3 * B.m 3 j⟩

/-- The C++ `Mat4::operator*(const Vec4&)`. -/
def mulVec (A : Mat4 K) (v : Vec4 K) : Vec4 K :=
  { x := A.m 0 0 * v.x + A.m 0 1 * v.y + A.m 0 2 * v.z + A.m 0 3 * v.w
    y := A.m 1 0 * v.x + A.m 1 1 * v.y + A.m 1 2 * v.z + A.m 1 3 * v.w
    z := A.m 2 0 * v.x + A.m 2 1 * v.y + A.m 2 2 * v.z + A.m 2 3 * v.w
    w := A.m 3 0 * v.x + A.m 3 1 * v.y + A.m 3 2 * v.z + A.m 3 3 * v.w }

end Mat4

/-! ## Transform builders -/

section Builders
variable {K : Type} [LinearOrderedField K]

/-- The C++ `translate(tx,ty,tz)`. -/
def translate (tx ty tz : K) : Mat4 K :=
  (((Mat4.identity.set 0 3 tx).set 1 3 ty).set 2 3 tz)

/-- The C++ `scaleM(sx,sy,sz)`. -/
def scaleM (sx sy sz : K) : Mat4 K :=
  (((Mat4.zero.set 0 0 sx).set 1 1 sy).set 2 2 sz).set 3 3 1

/-- The C++ `rotateX(deg)`; `pi`, `cosf`, `sinf` stand for `M_PI` and the library
functions of those names. -/
def rotateX (pi : K) (cosf sinf : K → K) (deg : K) : Mat4 K :=
  let r := deg * pi / 180
  ((((Mat4.identity.set 1 1 (cosf r)).set 1 2 (-sinf r)).set 2 1 (sinf r)).set 2 2 (cosf r))

/-- The C++ `rotateY(deg)`. -/
def rotateY (pi : K) (cosf sinf : K → K) (deg : K) : Mat4 K :=
  let r := deg * pi / 180
  ((((Mat4.identity.set 0 0 (cosf r)).set 0 2 (sinf r)).set 2 0 (-sinf r)).set 2 2 (cosf r))

/-- The C++ `rotateZ(deg)`. -/
def rotateZ (pi : K) (cosf sinf : K → K) (deg : K) : Mat4 K :=
  let r := deg * pi / 180
  ((((Mat4.identity.set 0 0 (cosf r)).set 0 1 (-sinf r)).set 1 0 (sinf r)).set 1 1 (cosf r))

/-- The C++ `makeOrthoMatrix(left,right,bottom,top,nearp,farp)`. -/
def makeOrthoMatrix (left right bottom top nearp farp : K) : Mat4 K :=
  (((((((Mat4.zero.set 0 0 (2 / (right - left))).set 1 1 (2 / (top - bottom))).set 2 2
    (-2 / (farp - nearp))).set 0 3 (-(right + left) / (right - left))).set 1 3
    (-(top + bottom) / (top - bottom))).set 2 3 (-(farp + nearp) / (farp - nearp))).set 3 3 1)

/-- The C++ `makePerspectiveMatrix(fovDeg,aspect,nearp,farp)`; `pi` and `tanf` stand
for `M_PI` and the library function `tanf`. -/
def makePerspectiveMatrix (pi : K) (tanf : K → K) (fovDeg aspect nearp farp : K) : Mat4 K :=
  let fovRad := fovDeg * pi / 180
  let f := 1 / tanf (fovRad / 2)
  (((((Mat4.zero.set 0 0 (f / aspect)).set 1 1 f).set 2 2
    ((farp + nearp) / (nearp - farp))).set 2 3 ((2 * farp * nearp) / (nearp - farp))).set 3 2 (-1))

end Builders

/-! ## Viewport mapping and clip test -/

/-- The constant `WINDOW_W`. -/
def WINDOW_W : Int := 900

/-- The constant `WINDOW_H`. -/
def WINDOW_H : Int := 700

/-- The C++ `ndcToScreen(ndc, sx, sy)`, returning the pair `(sx, sy)` it writes. -/
def ndcToScreen {K : Type} [LinearOrderedField K] [FloorRing K] (ndc : Vec4 K) : Int × Int :=
  let x := ndc.x
  let y := ndc.y
  (toInt ((x * (1 / 2) + 1 / 2) * (WINDOW_W : K) + 1 / 2),
   toInt ((y * (1 / 2) + 1 / 2) * (WINDOW_H : K) + 1 / 2))

/-- The lambda `outside` of `renderObject`: the outcode of a point. -/
def outside {K : Type} [LinearOrderedField K] (v : Vec4 K) : Nat :=
  let bits := 0
  let bits := if v.x < -1 then bits ||| 1 else bits
  let bits := if v.x > 1 then bits ||| 2 else bits
  let bits := if v.y < -1 then bits ||| 4 else bits
  let bits := if v.y > 1 then bits ||| 8 else bits
  let bits := if v.z < -1 then bits ||| 16 else bits
  let bits := if v.z > 1 then bits ||| 32 else bits
  bits

/-! ## Scene and edge pipeline -/

/-- The C++ `struct Object3D`; edge endpoints are `int` indices into `verts`. -/
structure Object3D (K : Type) where
  verts : List (Vec4 K)
  edges : List (Int × Int)

/-- The subscript `verts[i]`; an index outside the vector has no defined result. -/
def vertAt {K : Type} (verts : List (Vec4 K)) (i : Int) : Option (Vec4 K) :=
  if 0 ≤ i then verts[i.toNat]? else none

/-- The C++ `cubeObj()`. -/
def cubeObj {K : Type} [LinearOrderedField K] : Object3D K :=
  { verts := [makeVec (-1) (-1) (-1), makeVec 1 (-1) (-1), makeVec 1 1 (-1), makeVec (-1) 1 (-1),
              makeVec (-1) (-1) 1, makeVec 1 (-1) 1, makeVec 1 1 1, makeVec (-1) 1 1]
    edges := [(0,1),(1,2),(2,3),(3,0),
              (4,5),(5,6),(6,7),(7,4),
              (0,4),(1,5),(2,6),(3,7)] }

/-- The C++ `pyramidObj()`. -/
def pyramidObj {K : Type} [LinearOrderedField K] : Object3D K :=
  { verts := [makeVec (-1) (-1) (-1), makeVec 1 (-1) (-1), makeVec 1 1 (-1), makeVec (-1) 1 (-1),
              makeVec 0 0 (3 / 2)]
    edges := [(0,1),(1,2),(2,3),(3,0),(0,4),(1,4),(2,4),(3,4)] }

/-- The global scene state of the program. -/
structure State (K : Type) where
  model : Mat4 K
  showGrid : Bool
  usePerspective : Bool
  showHelp : Bool
  colorShading : Bool
  fov : K
  aspect : K
  nearp : K
  farp : K

/-- The initial values of the globals (`0.1f` is taken as the decimal `1/10`). -/
def initialState {K : Type} [LinearOrderedField K] : State K :=
  { model := Mat4.identity
    showGrid := true
    usePerspective := true
    showHelp := true
    colorShading := true
    fov := 60
    aspect := (WINDOW_W : K) / (WINDOW_H : K)
    nearp := 1 / 10
    farp := 100 }

/-- An RGB colour, the three arguments of `glColor3f`. -/
structure Color (K : Type) where
  r : K
  g : K
  b : K

section Pipeline
variable {K : Type} [LinearOrderedField K] [FloorRing K]

/-- The shade value of an edge in `renderObject`, from the two NDC depths. -/
def edgeShade (z0 z1 : K) : K :=
  let depth := (1 / 2) * (z0 + z1)
  let shade := 1 - (depth + 1) / 2
  max 0 (min 1 shade)

/-- The colour `renderObject` selects for an edge. -/
def edgeColor (colorShading : Bool) (shade : K) : Color K :=
  if colorShading then ⟨1 / 5 + 4 / 5 * shade, 1 / 5, 3 / 5 - 1 / 2 * (1 - shade)⟩
  else ⟨1, 1, 1⟩

/-- The perspective divide of `renderObject`: the initialiser
`{ c.x / c.w, c.y / c.w, c.z / c.w, 1.0f }` of `ndc0` and `ndc1`. -/
def perspectiveDivide (c : Vec4 K) : Vec4 K := ⟨c.x / c.w, c.y / c.w, c.z / c.w, 1⟩

/-- The body of the edge loop of `renderObject` for the edge with object-space
endpoints `a`, `b`: the plotted points, each with the current colour.  Both
`continue` statements yield the empty list. -/
def renderEdge (colorShading : Bool) (P modelMatrix : Mat4 K) (a b : Vec4 K) :
    List ((Int × Int) × Color K) :=
  let v0 := modelMatrix.mulVec a
  let v1 := modelMatrix.mulVec b
  let c0 := P.mulVec v0
  let c1 := P.mulVec v1
  if c0.w = 0 ∨ c1.w = 0 then []
  else
    let ndc0 := perspectiveDivide c0
    let ndc1 := perspectiveDivide c1
    let o0 := outside ndc0
    let o1 := outside ndc1
    if o0 &&& o1 ≠ 0 then []
    else
      let s0 := ndcToScreen ndc0
      let s1 := ndcToScreen ndc1
      let shade := edgeShade ndc0.z ndc1.z
      let col := edgeColor colorShading shade
      (drawLineDDA K s0.1 s0.2 s1.1 s1.2).map fun p => (p, col)

/-- The edge loop `for(const auto &e : obj.edges)` of `renderObject` over the
remaining edges: one list of plotted points per edge, in edge order; `none` if an edge
index is out of range. -/
def renderEdgeLoop (colorShading : Bool) (P : Mat4 K) (verts : List (Vec4 K))
    (modelMatrix : Mat4 K) : List (Int × Int) → Option (List (List ((Int × Int) × Color K)))
  | [] => some []
  | e :: es =>
    match vertAt verts e.1, vertAt verts e.2 with
    | some a, some b =>
      match renderEdgeLoop colorShading P verts modelMatrix es with
      | some rest => some (renderEdge colorShading P modelMatrix a b :: rest)
      | none => none
    | _, _ => none

/-- The edge loop of `renderObject` under projection matrix `P`. -/
def renderEdges (colorShading : Bool) (P : Mat4 K) (obj : Object3D K) (modelMatrix : Mat4 K) :
    Option (List (List ((Int × Int) × Color K))) :=
  renderEdgeLoop colorShading P obj.verts modelMatrix obj.edges

/-- The projection matrix `renderObject` builds from the globals. -/
def projectionMatrix (pi : K) (tanf : K → K) (st : State K) : Mat4 K :=
  if st.usePerspective then makePerspectiveMatrix pi tanf st.fov st.aspect st.nearp st.farp
  else
    let s : K := 4
    makeOrthoMatrix (-s) s (-s * (1 / st.aspect)) (s * (1 / st.aspect)) (-50) 50

/-- The C++ `renderObject(obj, modelMatrix)`, reading the globals from `st`. -/
def renderObject (pi : K) (tanf : K → K) (st : State K) (obj : Object3D K)
    (modelMatrix : Mat4 K) : Option (List (List ((Int × Int) × Color K))) :=
  renderEdges st.colorShading (projectionMatrix pi tanf st) obj modelMatrix

/-- The model matrix `display` passes for the cube: `model * translate(-2.5f, 0.0f, -8.0f)`. -/
def cubeModelMatrix (st : State K) : Mat4 K :=
  st.model.mul (translate (-5 / 2) 0 (-8))

/-- The model matrix `display` passes for the pyramid:
`model * translate(2.0f, -0.5f, -6.0f) * scaleM(0.9f,0.9f,0.9f)`. -/
def pyramidModelMatrix (st : State K) : Mat4 K :=
  (st.model.mul (translate 2 (-1 / 2) (-6))).mul (scaleM (9 / 10) (9 / 10) (9 / 10))

end Pipeline

/-! ## Input handlers -/

/-- The GLUT constant `GLUT_KEY_LEFT` (value from the GLUT header). -/
def GLUT_KEY_LEFT : Int := 100

/-- The GLUT constant `GLUT_KEY_UP`. -/
def GLUT_KEY_UP : Int := 101

/-- The GLUT constant `GLUT_KEY_RIGHT`. -/
def GLUT_KEY_RIGHT : Int := 102

/-- The GLUT constant `GLUT_KEY_DOWN`. -/
def GLUT_KEY_DOWN : Int := 103

/-- The GLUT constant `GLUT_KEY_PAGE_UP`. -/
def GLUT_KEY_PAGE_UP : Int := 104

/-- The GLUT constant `GLUT_KEY_PAGE_DOWN`. -/
def GLUT_KEY_PAGE_DOWN : Int := 105

section Handlers
variable {K : Type} [LinearOrderedField K]

/-- The C++ `specialKey(key, x, y)`: six independent `if` statements, each composing
a translation by `tstep = 0.2f` on the left of `model`.  The mouse position arguments
are discarded by the source and are left out. -/
def specialKey (key : Int) (st : State K) : State K :=
  let tstep : K := 1 / 5
  let model := st.model
  let model := if key = GLUT_KEY_LEFT then (translate (-tstep) 0 0).mul model else model
  let model := if key = GLUT_KEY_RIGHT then (translate tstep 0 0).mul model else model
  let model := if key = GLUT_KEY_UP then (translate 0 tstep 0).mul model else model
  let model := if key = GLUT_KEY_DOWN then (translate 0 (-tstep) 0).mul model else model
  let model := if key = GLUT_KEY_PAGE_UP then (translate 0 0 tstep).mul model else model
  let model := if key = GLUT_KEY_PAGE_DOWN then (translate 0 0 (-tstep)).mul model else model
  { st with model := model }

/-- The C++ `keyboard(key, x, y)`: the `switch` on the key, every case ending in
`break`.  Key 27 (ESC) calls `exit(0)`, after which there is no state: `none`. -/
def keyboard (pi : K) (cosf sinf : K → K) (key : Char) (st : State K) : Option (State K) :=
  if key = Char.ofNat 27 then none
  else if key = 'o' then some { st with usePerspective := false }
  else if key = 'p' then some { st with usePerspective := true }
  else if key = '+' then some { st with fov := max 10 (st.fov - 2) }
  else if key = '-' then some { st with fov := min 150 (st.fov + 2) }
  else if key = 'x' then some { st with model := (rotateX pi cosf sinf (-5)).mul st.model }
  else if key = 'X' then some { st with model := (rotateX pi cosf sinf 5).mul st.model }
  else if key = 'y' then some { st with model := (rotateY pi cosf sinf (-5)).mul st.model }
  else if key = 'Y' then some { st with model := (rotateY pi cosf sinf 5).mul st.model }
  else if key = 'z' then some { st with model := (rotateZ pi cosf sinf (-5)).mul st.model }
  else if key = 'Z' then some { st with model := (rotateZ pi cosf sinf 5).mul st.model }
  else if key = 's' then some { st with model := (scaleM (9 / 10) (9 / 10) (9 / 10)).mul st.model }
  else if key = 'S' then some { st with model := (scaleM (11 / 10) (11 / 10) (11 / 10)).mul st.model }
  else if key = 'r' then some { st with model := Mat4.identity }
  else if key = 'g' then some { st with showGrid := !st.showGrid }
  else if key = 'c' then some { st with colorShading := !st.colorShading }
  else if key = 'h' then some { st with showHelp := !st.showHelp }
  else some st

/-- An input event delivered by the GLUT main loop: a call of `keyboard` or of
`specialKey`. -/
inductive Event where
  | key (c : Char)
  | special (k : Int)

/-- One event handled from state `st`; `none` when the handler exits the process. -/
def step (pi : K) (cosf sinf : K → K) : Event → State K → Option (State K)
  | .key c, st => keyboard pi cosf sinf c st
  | .special k, st => some (specialKey k st)

/-- The state after a finite sequence of events, handled in order. -/
def runEvents (pi : K) (cosf sinf : K → K) : List Event → State K → Option (State K)
  | [], st => some st
  | e :: es, st =>
    match step pi cosf sinf e st with
    | some st2 => runEvents pi cosf sinf es st2
    | none => none

end Handlers

/-- The property of a matrix that its bottom row is `(0,0,0,1)`, so that applying it
leaves the `w` component of a vector unchanged. -/
def Mat4.bottomRowUnit {K : Type} [LinearOrderedField K] (M : Mat4 K) : Prop :=
  M.m 3 0 = 0 ∧ M.m 3 1 = 0 ∧ M.m 3 2 = 0 ∧ M.m 3 3 = 1

/-! ## Lemmas on rounding -/

section Rounding
variable {K : Type} [LinearOrderedField K] [FloorRing K]

theorem roundf_intCast (n : Int) : roundf (n : K) = n := by
  unfold roundf
  split_ifs with h
  · rw [Int.floor_eq_iff]
    constructor <;> linarith
  · rw [Int.ceil_eq_iff]
    constructor <;> linarith

theorem roundf_mono {a b : K} (h : a ≤ b) : roundf a ≤ roundf b := by
  unfold roundf
  split_ifs with ha hb hb
  · exact Int.floor_le_floor (by linarith)
  · exact absurd (le_trans ha h) hb
  · push_neg at ha
    have h1 : ⌈a - 1 / 2⌉ ≤ 0 := by
      rw [Int.ceil_le]; push_cast; linarith
    have h2 : (0 : Int) ≤ ⌊b + 1 / 2⌋ := by
      rw [Int.le_floor]; push_cast; linarith
    exact le_trans h1 h2
  · exact Int.ceil_le_ceil (by linarith)

theorem ddaLoop_eq (xInc yInc : K) (n : Nat) (x y : K) :
    ddaLoop xInc yInc n x y
      = (List.range n).map fun i : Nat => (roundf (x + (i : K) * xInc), roundf (y + (i : K) * yInc)) := by
  induction n generalizing x y with
  | zero => simp [ddaLoop]
  | succ n ih =>
    rw [ddaLoop, ih, List.range_succ_eq_map]
    simp only [List.map_cons, List.map_map, Nat.cast_zero, zero_mul, add_zero]
    congr 1
    apply List.map_congr_left
    intro i _
    simp only [Function.comp, Nat.cast_succ]
    congr 2 <;> ring

end Rounding

/-! ## The line rasterizer -/

theorem intCast_mul_div_abs (K : Type) [LinearOrderedField K] (a : Int) (i : Nat) (h : 0 < |a|) :
    (i : K) * (a : K) / ((|a| : Int) : K) = ((i * Int.sign a : Int) : K) := by
  have hne : ((|a| : Int) : K) ≠ 0 := by
    exact_mod_cast ne_of_gt h
  rw [div_eq_iff hne]
  have h2 : (a : K) = ((Int.sign a * |a| : Int) : K) := by rw [Int.sign_mul_abs]
  nth_rewrite 1 [h2]
  push_cast
  ring

section Rasterizer
variable (K : Type) [LinearOrderedField K] [FloorRing K]

theorem drawLineDDA_zero (x0 y0 x1 y1 : Int) (h : max |x1 - x0| |y1 - y0| = 0) :
    drawLineDDA K x0 y0 x1 y1 = [(x0, y0)] := by
  simp only [drawLineDDA, h, if_true]

theorem drawLineDDA_eq_map (x0 y0 x1 y1 : Int) (h : 0 < max |x1 - x0| |y1 - y0|) :
    drawLineDDA K x0 y0 x1 y1
      = (List.range ((max |x1 - x0| |y1 - y0|).toNat + 1)).map fun i : Nat =>
          (roundf ((x0 : K) + (i : K) * ((x1 - x0 : Int) : K) / ((max |x1 - x0| |y1 - y0| : Int) : K)),
           roundf ((y0 : K) + (i : K) * ((y1 - y0 : Int) : K) / ((max |x1 - x0| |y1 - y0| : Int) : K))) := by
  have hne : max |x1 - x0| |y1 - y0| ≠ 0 := ne_of_gt h
  simp only [drawLineDDA, hne, if_false, ddaLoop_eq]
  apply List.map_congr_left
  intro i _
  simp only [mul_div_assoc]

theorem drawLineDDA_eq_closedForm (x0 y0 x1 y1 : Int) :
    drawLineDDA K x0 y0 x1 y1 = ddaClosedForm K x0 y0 x1 y1 := by
  rcases eq_or_lt_of_le (le_max_of_le_left (abs_nonneg (x1 - x0)) :
      (0 : Int) ≤ max |x1 - x0| |y1 - y0|) with h | h
  · simp only [drawLineDDA, ddaClosedForm, ← h, if_true]
  · rw [drawLineDDA_eq_map K _ _ _ _ h]
    simp only [ddaClosedForm, ne_of_gt h, if_false]

theorem drawLineDDA_getElem? (x0 y0 x1 y1 : Int) (h : 0 < max |x1 - x0| |y1 - y0|)
    (i : Nat) (hi : i ≤ (max |x1 - x0| |y1 - y0|).toNat) :
    (drawLineDDA K x0 y0 x1 y1)[i]?
      = some (roundf ((x0 : K) + (i : K) * ((x1 - x0 : Int) : K) / ((max |x1 - x0| |y1 - y0| : Int) : K)),
              roundf ((y0 : K) + (i : K) * ((y1 - y0 : Int) : K) / ((max |x1 - x0| |y1 - y0| : Int) : K))) := by
  rw [drawLineDDA_eq_map K _ _ _ _ h, List.getElem?_map, List.getElem?_range (by omega)]
  rfl

/-- C1: with `steps = max |dx| |dy|`, `drawLineDDA` emits exactly `(x0,y0)` when
`steps = 0`; when `steps > 0` it emits exactly `steps + 1` points and the `i`-th point
produced by the accumulating loop is `(round(x0 + i*dx/steps), round(y0 + i*dy/steps))`;
altogether the emitted list is the closed form of the specification. -/
theorem drawLineDDA_closed_form (x0 y0 x1 y1 : Int) :
    drawLineDDA K x0 y0 x1 y1 = ddaClosedForm K x0 y0 x1 y1 ∧
    (max |x1 - x0| |y1 - y0| = 0 → drawLineDDA K x0 y0 x1 y1 = [(x0, y0)]) ∧
    (0 < max |x1 - x0| |y1 - y0| →
      (drawLineDDA K x0 y0 x1 y1).length = (max |x1 - x0| |y1 - y0|).toNat + 1 ∧
      ∀ i : Nat, i ≤ (max |x1 - x0| |y1 - y0|).toNat →
        (drawLineDDA K x0 y0 x1 y1)[i]?
          = some (roundf ((x0 : K) + (i : K) * ((x1 - x0 : Int) : K)
                    / ((max |x1 - x0| |y1 - y0| : Int) : K)),
                  roundf ((y0 : K) + (i : K) * ((y1 - y0 : Int) : K)
                    / ((max |x1 - x0| |y1 - y0| : Int) : K)))) := by
  refine ⟨drawLineDDA_eq_closedForm K x0 y0 x1 y1, drawLineDDA_zero K x0 y0 x1 y1, fun h => ⟨?_, ?_⟩⟩
  · rw [drawLineDDA_eq_map K _ _ _ _ h]
    simp
  · exact fun i hi => drawLineDDA_getElem? K x0 y0 x1 y1 h i hi

/-- Witness for C1: the segment (0,0)-(3,2) has four points, the third being (2,1), and
the degenerate segment (4,7)-(4,7) has the single point (4,7). -/
theorem drawLineDDA_closed_form_witness :
    (drawLineDDA ℚ 0 0 3 2).length = 4 ∧ (drawLineDDA ℚ 0 0 3 2)[2]? = some (2, 1) ∧
    drawLineDDA ℚ 4 7 4 7 = [(4, 7)] :=
  ⟨((drawLineDDA_closed_form ℚ 0 0 3 2).2.2 (by decide)).1,
   by
    have h := ((drawLineDDA_closed_form ℚ 0 0 3 2).2.2 (by decide)).2 2 (by decide)
    rw [h]
    decide!,
   (drawLineDDA_closed_form ℚ 4 7 4 7).2.1 (by decide)⟩

theorem roundf_dominant (a0 a : Int) (i : Nat) (h : 0 < |a|) :
    roundf ((a0 : K) + (i : K) * (a : K) / ((|a| : Int) : K)) = a0 + i * Int.sign a := by
  rw [intCast_mul_div_abs K a i h, ← Int.cast_add, roundf_intCast]

/-- C2: the first point emitted by `drawLineDDA` is `(x0,y0)` and the last point
emitted is `(x1,y1)`. -/
theorem drawLineDDA_endpoints (x0 y0 x1 y1 : Int) :
    (drawLineDDA K x0 y0 x1 y1).head? = some (x0, y0) ∧
    (drawLineDDA K x0 y0 x1 y1).getLast? = some (x1, y1) := by
  rcases eq_or_lt_of_le (le_max_of_le_left (abs_nonneg (x1 - x0)) :
      (0 : Int) ≤ max |x1 - x0| |y1 - y0|) with h | h
  · have hx : |x1 - x0| ≤ 0 := h ▸ le_max_left _ _
    have hy : |y1 - y0| ≤ 0 := h ▸ le_max_right _ _
    have hx2 : x1 = x0 := by
      have := abs_nonpos_iff.mp hx
      omega
    have hy2 : y1 = y0 := by
      have := abs_nonpos_iff.mp hy
      omega
    rw [drawLineDDA_zero K _ _ _ _ h.symm, hx2, hy2]
    simp
  · have hlen : (drawLineDDA K x0 y0 x1 y1).length = (max |x1 - x0| |y1 - y0|).toNat + 1 := by
      rw [drawLineDDA_eq_map K _ _ _ _ h]
      simp
    constructor
    · rw [List.head?_eq_getElem?, drawLineDDA_getElem? K _ _ _ _ h 0 (Nat.zero_le _)]
      simp [roundf_intCast]
    · rw [List.getLast?_eq_getElem?, hlen, Nat.add_sub_cancel,
        drawLineDDA_getElem? K _ _ _ _ h _ (le_refl _)]
      have hc : (((max |x1 - x0| |y1 - y0|).toNat : Nat) : K)
          = ((max |x1 - x0| |y1 - y0| : Int) : K) := by
        have : (((max |x1 - x0| |y1 - y0|).toNat : Nat) : Int) = max |x1 - x0| |y1 - y0| :=
          Int.toNat_of_nonneg (le_of_lt h)
        exact_mod_cast this
      have hne : ((max |x1 - x0| |y1 - y0| : Int) : K) ≠ 0 := by
        exact_mod_cast ne_of_gt h
      rw [hc, mul_div_assoc, mul_div_assoc, mul_div_cancel₀ _ hne, mul_div_cancel₀ _ hne,
        ← Int.cast_add, ← Int.cast_add, roundf_intCast, roundf_intCast]
      simp

/-- C3: when `steps > 0` the dominant-axis coordinate advances by exactly one unit per
step (`x = x0 + i*sign dx` if `|dy| ≤ |dx|`, `y = y0 + i*sign dy` if `|dx| ≤ |dy|`), and a
horizontal segment with `x0 < x1` emits `(x0,y0), (x0+1,y0), ..., (x1,y0)` in order. -/
theorem drawLineDDA_dominant_axis (x0 y0 x1 y1 : Int) :
    (0 < max |x1 - x0| |y1 - y0| →
      (|y1 - y0| ≤ |x1 - x0| → ∀ i : Nat, i ≤ (max |x1 - x0| |y1 - y0|).toNat →
        ((drawLineDDA K x0 y0 x1 y1)[i]?).map Prod.fst = some (x0 + i * Int.sign (x1 - x0))) ∧
      (|x1 - x0| ≤ |y1 - y0| → ∀ i : Nat, i ≤ (max |x1 - x0| |y1 - y0|).toNat →
        ((drawLineDDA K x0 y0 x1 y1)[i]?).map Prod.snd = some (y0 + i * Int.sign (y1 - y0)))) ∧
    (y0 = y1 → x0 < x1 →
      drawLineDDA K x0 y0 x1 y1
        = (List.range ((x1 - x0).toNat + 1)).map fun i : Nat => (x0 + (i : Int), y0)) := by
  refine ⟨fun h => ⟨fun hd i hi => ?_, fun hd i hi => ?_⟩, fun hy hx => ?_⟩
  · rw [drawLineDDA_getElem? K _ _ _ _ h i hi]
    have hm : max |x1 - x0| |y1 - y0| = |x1 - x0| := max_eq_left hd
    simp only [Option.map_some', hm]
    rw [roundf_dominant K x0 (x1 - x0) i (hm ▸ h)]
  · rw [drawLineDDA_getElem? K _ _ _ _ h i hi]
    have hm : max |x1 - x0| |y1 - y0| = |y1 - y0| := max_eq_right hd
    simp only [Option.map_some', hm]
    rw [roundf_dominant K y0 (y1 - y0) i (hm ▸ h)]
  · subst hy
    have hpos : 0 < x1 - x0 := by omega
    have hm : max |x1 - x0| |y0 - y0| = x1 - x0 := by
      rw [sub_self, abs_zero, abs_of_pos hpos]
      exact max_eq_left (le_of_lt hpos)
    have h : 0 < max |x1 - x0| |y0 - y0| := by rw [hm]; exact hpos
    rw [drawLineDDA_eq_map K _ _ _ _ h]
    simp only [hm]
    apply List.map_congr_left
    intro i _
    have e1 := roundf_dominant K x0 (x1 - x0) i (by rw [abs_of_pos hpos]; exact hpos)
    rw [abs_of_pos hpos, Int.sign_eq_one_of_pos hpos, mul_one] at e1
    rw [e1, sub_self, Int.cast_zero, mul_zero, zero_div, add_zero, roundf_intCast]

/-- Witness for C3: the segment (0,0)-(5,0) gives the six points (0,0)..(5,0), and on
the steep segment (0,0)-(1,-3) the third point has y = -2. -/
theorem drawLineDDA_dominant_axis_witness :
    drawLineDDA ℚ 0 0 5 0 = [(0, 0), (1, 0), (2, 0), (3, 0), (4, 0), (5, 0)] ∧
    ((drawLineDDA ℚ 0 0 1 (-3))[2]?).map Prod.snd = some (-2) :=
  ⟨(drawLineDDA_dominant_axis ℚ 0 0 5 0).2 rfl (by decide),
   ((drawLineDDA_dominant_axis ℚ 0 0 1 (-3)).1 (by decide)).2 (by decide) 2 (by decide)⟩

end Rasterizer

/-! ## The clip test -/

section Clip
variable {K : Type} [LinearOrderedField K]

theorem outside_and_one (v : Vec4 K) : outside v &&& 1 = if v.x < -1 then 1 else 0 := by
  unfold outside
  by_cases h1 : v.x < -1 <;> by_cases h2 : v.x > 1 <;> by_cases h3 : v.y < -1 <;>
    by_cases h4 : v.y > 1 <;> by_cases h5 : v.z < -1 <;> by_cases h6 : v.z > 1 <;>
    simp only [h1, h2, h3, h4, h5, h6, if_true, if_false] <;> decide

theorem outside_and_two (v : Vec4 K) : outside v &&& 2 = if v.x > 1 then 2 else 0 := by
  unfold outside
  by_cases h1 : v.x < -1 <;> by_cases h2 : v.x > 1 <;> by_cases h3 : v.y < -1 <;>
    by_cases h4 : v.y > 1 <;> by_cases h5 : v.z < -1 <;> by_cases h6 : v.z > 1 <;>
    simp only [h1, h2, h3, h4, h5, h6, if_true, if_false] <;> decide

theorem outside_and_four (v : Vec4 K) : outside v &&& 4 = if v.y < -1 then 4 else 0 := by
  unfold outside
  by_cases h1 : v.x < -1 <;> by_cases h2 : v.x > 1 <;> by_cases h3 : v.y < -1 <;>
    by_cases h4 : v.y > 1 <;> by_cases h5 : v.z < -1 <;> by_cases h6 : v.z > 1 <;>
    simp only [h1, h2, h3, h4, h5, h6, if_true, if_false] <;> decide

theorem outside_and_eight (v : Vec4 K) : outside v &&& 8 = if v.y > 1 then 8 else 0 := by
  unfold outside
  by_cases h1 : v.x < -1 <;> by_cases h2 : v.x > 1 <;> by_cases h3 : v.y < -1 <;>
    by_cases h4 : v.y > 1 <;> by_cases h5 : v.z < -1 <;> by_cases h6 : v.z > 1 <;>
    simp only [h1, h2, h3, h4, h5, h6, if_true, if_false] <;> decide

theorem outside_and_sixteen (v : Vec4 K) : outside v &&& 16 = if v.z < -1 then 16 else 0 := by
  unfold outside
  by_cases h1 : v.x < -1 <;> by_cases h2 : v.x > 1 <;> by_cases h3 : v.y < -1 <;>
    by_cases h4 : v.y > 1 <;> by_cases h5 : v.z < -1 <;> by_cases h6 : v.z > 1 <;>
    simp only [h1, h2, h3, h4, h5, h6, if_true, if_false] <;> decide

theorem outside_and_thirtytwo (v : Vec4 K) : outside v &&& 32 = if v.z > 1 then 32 else 0 := by
  unfold outside
  by_cases h1 : v.x < -1 <;> by_cases h2 : v.x > 1 <;> by_cases h3 : v.y < -1 <;>
    by_cases h4 : v.y > 1 <;> by_cases h5 : v.z < -1 <;> by_cases h6 : v.z > 1 <;>
    simp only [h1, h2, h3, h4, h5, h6, if_true, if_false] <;> decide

theorem outside_lt (v : Vec4 K) : outside v < 64 := by
  unfold outside
  by_cases h1 : v.x < -1 <;> by_cases h2 : v.x > 1 <;> by_cases h3 : v.y < -1 <;>
    by_cases h4 : v.y > 1 <;> by_cases h5 : v.z < -1 <;> by_cases h6 : v.z > 1 <;>
    simp only [h1, h2, h3, h4, h5, h6, if_true, if_false] <;> decide

theorem outside_eq_zero_iff (v : Vec4 K) :
    outside v = 0 ↔ (-1 ≤ v.x ∧ v.x ≤ 1) ∧ (-1 ≤ v.y ∧ v.y ≤ 1) ∧ (-1 ≤ v.z ∧ v.z ≤ 1) := by
  unfold outside
  by_cases h1 : v.x < -1 <;> by_cases h2 : v.x > 1 <;> by_cases h3 : v.y < -1 <;>
    by_cases h4 : v.y > 1 <;> by_cases h5 : v.z < -1 <;> by_cases h6 : v.z > 1 <;>
    simp only [h1, h2, h3, h4, h5, h6, if_true, if_false] <;>
    simp only [gt_iff_lt, not_lt] at h1 h2 h3 h4 h5 h6 <;>
    simp [h1, h2, h3, h4, h5, h6]

/-- C9: the outcode has exactly one bit per violated face (1 iff `x < -1`, 2 iff `x > 1`,
4 iff `y < -1`, 8 iff `y > 1`, 16 iff `z < -1`, 32 iff `z > 1`) and no other bits; it is 0
exactly when all three coordinates lie in `[-1,1]`, in particular for every point
strictly inside the cube. -/
theorem outside_one_bit_per_face (v : Vec4 K) :
    (outside v &&& 1 = if v.x < -1 then 1 else 0) ∧
    (outside v &&& 2 = if v.x > 1 then 2 else 0) ∧
    (outside v &&& 4 = if v.y < -1 then 4 else 0) ∧
    (outside v &&& 8 = if v.y > 1 then 8 else 0) ∧
    (outside v &&& 16 = if v.z < -1 then 16 else 0) ∧
    (outside v &&& 32 = if v.z > 1 then 32 else 0) ∧
    outside v < 64 ∧
    (outside v = 0 ↔ (-1 ≤ v.x ∧ v.x ≤ 1) ∧ (-1 ≤ v.y ∧ v.y ≤ 1) ∧ (-1 ≤ v.z ∧ v.z ≤ 1)) ∧
    ((-1 < v.x ∧ v.x < 1) ∧ (-1 < v.y ∧ v.y < 1) ∧ (-1 < v.z ∧ v.z < 1) → outside v = 0) :=
  ⟨outside_and_one v, outside_and_two v, outside_and_four v, outside_and_eight v,
   outside_and_sixteen v, outside_and_thirtytwo v, outside_lt v, outside_eq_zero_iff v,
   fun h => (outside_eq_zero_iff v).mpr
     ⟨⟨le_of_lt h.1.1, le_of_lt h.1.2⟩, ⟨le_of_lt h.2.1.1, le_of_lt h.2.1.2⟩,
      ⟨le_of_lt h.2.2.1, le_of_lt h.2.2.2⟩⟩⟩

/-- Witness for C9: the point (1/2, -1/3, 0) is strictly inside the cube and has
outcode 0. -/
theorem outside_one_bit_per_face_witness :
    outside (makeVec (1 / 2 : ℚ) (-1 / 3) 0) = 0 :=
  (outside_one_bit_per_face (makeVec (1 / 2 : ℚ) (-1 / 3) 0)).2.2.2.2.2.2.2.2
    (by simp only [makeVec]; norm_num)

end Clip

/-! ## The edge pipeline -/

section Edge
variable {K : Type} [LinearOrderedField K] [FloorRing K]

theorem drawLineDDA_ne_nil (x0 y0 x1 y1 : Int) : drawLineDDA K x0 y0 x1 y1 ≠ [] := by
  intro h
  have hl := congrArg List.length h
  rcases eq_or_lt_of_le (le_max_of_le_left (abs_nonneg (x1 - x0)) :
      (0 : Int) ≤ max |x1 - x0| |y1 - y0|) with h0 | h0
  · rw [drawLineDDA_zero K _ _ _ _ h0.symm] at hl
    simp at hl
  · rw [drawLineDDA_eq_map K _ _ _ _ h0] at hl
    simp at hl

theorem renderEdge_of_reject (cs : Bool) (P M : Mat4 K) (a b : Vec4 K)
    (h : (P.mulVec (M.mulVec a)).w = 0 ∨ (P.mulVec (M.mulVec b)).w = 0 ∨
      outside (perspectiveDivide (P.mulVec (M.mulVec a)))
        &&& outside (perspectiveDivide (P.mulVec (M.mulVec b))) ≠ 0) :
    renderEdge cs P M a b = [] := by
  unfold renderEdge
  by_cases hw : (P.mulVec (M.mulVec a)).w = 0 ∨ (P.mulVec (M.mulVec b)).w = 0
  · simp only [hw, if_true]
  · have ho := h.resolve_left (fun h0 => hw (Or.inl h0)) |>.resolve_left (fun h1 => hw (Or.inr h1))
    simp only [hw, if_false]
    rw [if_pos ho]

theorem renderEdge_of_accept (cs : Bool) (P M : Mat4 K) (a b : Vec4 K)
    (hw0 : (P.mulVec (M.mulVec a)).w ≠ 0) (hw1 : (P.mulVec (M.mulVec b)).w ≠ 0)
    (ho : outside (perspectiveDivide (P.mulVec (M.mulVec a)))
        &&& outside (perspectiveDivide (P.mulVec (M.mulVec b))) = 0) :
    (renderEdge cs P M a b).map Prod.fst
      = drawLineDDA K
          (ndcToScreen (perspectiveDivide (P.mulVec (M.mulVec a)))).1
          (ndcToScreen (perspectiveDivide (P.mulVec (M.mulVec a)))).2
          (ndcToScreen (perspectiveDivide (P.mulVec (M.mulVec b)))).1
          (ndcToScreen (perspectiveDivide (P.mulVec (M.mulVec b)))).2 := by
  unfold renderEdge
  have hw : ¬ ((P.mulVec (M.mulVec a)).w = 0 ∨ (P.mulVec (M.mulVec b)).w = 0) := by
    rintro (h | h)
    · exact hw0 h
    · exact hw1 h
  simp only [hw, if_false]
  rw [if_neg (not_not.mpr ho), List.map_map]
  simp [Function.comp_def]

/-- C4: `renderObject` emits no points for an edge exactly when a clip-space `w` is
zero or the bitwise AND of the two outcodes is non-zero; in every other case it plots
the non-empty point sequence of `drawLineDDA` between the two mapped endpoints.  In
particular an edge whose two NDC endpoints both have `x > 1` is discarded, both
outcodes containing the bit of value 2. -/
theorem renderEdge_reject_iff (cs : Bool) (P M : Mat4 K) (a b : Vec4 K) :
    (renderEdge cs P M a b = [] ↔
      ((P.mulVec (M.mulVec a)).w = 0 ∨ (P.mulVec (M.mulVec b)).w = 0 ∨
        outside (perspectiveDivide (P.mulVec (M.mulVec a)))
          &&& outside (perspectiveDivide (P.mulVec (M.mulVec b))) ≠ 0)) ∧
    (renderEdge cs P M a b ≠ [] →
      (renderEdge cs P M a b).map Prod.fst
        = drawLineDDA K
            (ndcToScreen (perspectiveDivide (P.mulVec (M.mulVec a)))).1
            (ndcToScreen (perspectiveDivide (P.mulVec (M.mulVec a)))).2
            (ndcToScreen (perspectiveDivide (P.mulVec (M.mulVec b)))).1
            (ndcToScreen (perspectiveDivide (P.mulVec (M.mulVec b)))).2) ∧
    ((perspectiveDivide (P.mulVec (M.mulVec a))).x > 1 →
      (perspectiveDivide (P.mulVec (M.mulVec b))).x > 1 →
        outside (perspectiveDivide (P.mulVec (M.mulVec a))) &&& 2 = 2 ∧
        outside (perspectiveDivide (P.mulVec (M.mulVec b))) &&& 2 = 2 ∧
        renderEdge cs P M a b = []) := by
  have key : ¬ ((P.mulVec (M.mulVec a)).w = 0 ∨ (P.mulVec (M.mulVec b)).w = 0 ∨
        outside (perspectiveDivide (P.mulVec (M.mulVec a)))
          &&& outside (perspectiveDivide (P.mulVec (M.mulVec b))) ≠ 0) →
      (renderEdge cs P M a b).map Prod.fst
        = drawLineDDA K
            (ndcToScreen (perspectiveDivide (P.mulVec (M.mulVec a)))).1
            (ndcToScreen (perspectiveDivide (P.mulVec (M.mulVec a)))).2
            (ndcToScreen (perspectiveDivide (P.mulVec (M.mulVec b)))).1
            (ndcToScreen (perspectiveDivide (P.mulVec (M.mulVec b)))).2 := by
    intro hn
    push_neg at hn
    exact renderEdge_of_accept cs P M a b hn.1 hn.2.1 hn.2.2
  refine ⟨⟨fun h => ?_, renderEdge_of_reject cs P M a b⟩, fun hne => ?_, fun ha hb => ?_⟩
  · by_contra hn
    have hm := key hn
    rw [h, List.map_nil] at hm
    exact drawLineDDA_ne_nil _ _ _ _ hm.symm
  · exact key (fun hr => hne (renderEdge_of_reject cs P M a b hr))
  · have h0 : outside (perspectiveDivide (P.mulVec (M.mulVec a))) &&& 2 = 2 := by
      rw [outside_and_two, if_pos ha]
    have h1 : outside (perspectiveDivide (P.mulVec (M.mulVec b))) &&& 2 = 2 := by
      rw [outside_and_two, if_pos hb]
    refine ⟨h0, h1, renderEdge_of_reject cs P M a b (Or.inr (Or.inr ?_))⟩
    intro hz
    have h2 : (outside (perspectiveDivide (P.mulVec (M.mulVec a)))
        &&& outside (perspectiveDivide (P.mulVec (M.mulVec b)))) &&& 2 = 2 := by
      rw [Nat.and_assoc, h1, h0]
    rw [hz] at h2
    simp at h2

/-- Witness for C4: under identity model and projection matrices, the edge from
(2,0,0) to (3,0,0) has both NDC endpoints at `x > 1` and is discarded. -/
theorem renderEdge_reject_iff_witness :
    renderEdge true (Mat4.identity : Mat4 ℚ) Mat4.identity (makeVec 2 0 0) (makeVec 3 0 0) = [] :=
  ((renderEdge_reject_iff true (Mat4.identity : Mat4 ℚ) Mat4.identity
      (makeVec 2 0 0) (makeVec 3 0 0)).2.2 (by decide!) (by decide!)).2.2

end Edge

/-! ## Projection matrices -/

section Projection
variable {K : Type} [LinearOrderedField K]

theorem makePerspectiveMatrix_mulVec (pi : K) (tanf : K → K) (fov aspect nearp farp : K)
    (v : Vec4 K) :
    (makePerspectiveMatrix pi tanf fov aspect nearp farp).mulVec v
      = ⟨1 / tanf (fov * pi / 180 / 2) / aspect * v.x,
         1 / tanf (fov * pi / 180 / 2) * v.y,
         (farp + nearp) / (nearp - farp) * v.z + (2 * farp * nearp) / (nearp - farp) * v.w,
         -v.z⟩ := by
  simp [makePerspectiveMatrix, Mat4.mulVec, Mat4.set, Mat4.zero]

theorem div_abs_le_one_of_lt {p q : K} (hq : 0 < q) (h : |p| < q) : |p / q| ≤ 1 := by
  rw [abs_div, abs_of_pos hq, div_le_one hq]
  exact le_of_lt h

theorem perspective_ndc_of_tan_pos (pi : K) (tanf : K → K) (fov aspect nearp farp x y z : K)
    (ht : 0 < tanf (fov * pi / 180 / 2)) (hasp : 0 < aspect) (hn : 0 < nearp)
    (hnf : nearp < farp) (hz1 : -farp < z) (hz2 : z < -nearp)
    (hy : |y| < -z * tanf (fov * pi / 180 / 2))
    (hx : |x| < -z * aspect * tanf (fov * pi / 180 / 2)) :
    ((makePerspectiveMatrix pi tanf fov aspect nearp farp).mulVec ⟨x, y, z, 1⟩).w ≠ 0 ∧
    |(perspectiveDivide
        ((makePerspectiveMatrix pi tanf fov aspect nearp farp).mulVec ⟨x, y, z, 1⟩)).x| ≤ 1 ∧
    |(perspectiveDivide
        ((makePerspectiveMatrix pi tanf fov aspect nearp farp).mulVec ⟨x, y, z, 1⟩)).y| ≤ 1 ∧
    |(perspectiveDivide
        ((makePerspectiveMatrix pi tanf fov aspect nearp farp).mulVec ⟨x, y, z, 1⟩)).z| ≤ 1 := by
  rw [makePerspectiveMatrix_mulVec]
  simp only [perspectiveDivide]
  have hq : 0 < -z := by linarith
  have hd : 0 < farp - nearp := by linarith
  refine ⟨ne_of_gt hq, ?_, ?_, ?_⟩
  · apply div_abs_le_one_of_lt hq
    rw [abs_mul, abs_of_pos (div_pos (div_pos one_pos ht) hasp), div_div, div_mul_eq_mul_div,
      one_mul, div_lt_iff₀ (mul_pos ht hasp)]
    calc |x| < -z * aspect * tanf (fov * pi / 180 / 2) := hx
      _ = -z * (tanf (fov * pi / 180 / 2) * aspect) := by ring
  · apply div_abs_le_one_of_lt hq
    rw [abs_mul, abs_of_pos (div_pos one_pos ht), div_mul_eq_mul_div, one_mul, div_lt_iff₀ ht]
    exact hy
  · rw [abs_div, abs_of_pos hq, div_le_one hq, abs_le]
    have e : (farp + nearp) / (nearp - farp) * z + 2 * farp * nearp / (nearp - farp) * 1
        = ((farp + nearp) * (-z) - 2 * farp * nearp) / (farp - nearp) := by
      have h1 : nearp - farp ≠ 0 := by
        intro h0
        linarith
      have h2 : farp - nearp ≠ 0 := ne_of_gt hd
      field_simp
      ring
    rw [e]
    constructor
    · rw [le_div_iff₀ hd]
      nlinarith
    · rw [div_le_iff₀ hd]
      nlinarith

theorem makeOrthoMatrix_mulVec (left right bottom top nearp farp : K) (v : Vec4 K) :
    (makeOrthoMatrix left right bottom top nearp farp).mulVec v
      = ⟨2 / (right - left) * v.x + -(right + left) / (right - left) * v.w,
         2 / (top - bottom) * v.y + -(top + bottom) / (top - bottom) * v.w,
         -2 / (farp - nearp) * v.z + -(farp + nearp) / (farp - nearp) * v.w,
         v.w⟩ := by
  simp [makeOrthoMatrix, Mat4.mulVec, Mat4.set, Mat4.zero]

theorem ortho_axis (lo hi u : K) (h : lo < hi) :
    (lo ≤ u → u ≤ hi →
      -1 ≤ 2 / (hi - lo) * u + -(hi + lo) / (hi - lo) * 1 ∧
      2 / (hi - lo) * u + -(hi + lo) / (hi - lo) * 1 ≤ 1) ∧
    2 / (hi - lo) * lo + -(hi + lo) / (hi - lo) * 1 = -1 ∧
    2 / (hi - lo) * hi + -(hi + lo) / (hi - lo) * 1 = 1 := by
  have hd : 0 < hi - lo := by linarith
  have hne : hi - lo ≠ 0 := ne_of_gt hd
  have e : ∀ w : K, 2 / (hi - lo) * w + -(hi + lo) / (hi - lo) * 1
      = (2 * w - (hi + lo)) / (hi - lo) := by
    intro w
    field_simp
    ring
  refine ⟨fun h1 h2 => ?_, ?_, ?_⟩
  · rw [e, le_div_iff₀ hd, div_le_iff₀ hd]
    constructor <;> linarith
  · rw [e, div_eq_iff hne]
    ring
  · rw [e, div_eq_iff hne]
    ring

/-- C10: for `left < right`, `bottom < top`, `near < far`, `makeOrthoMatrix` applied to
`(x,y,z,1)` yields `w = 1`, maps the view box (`left ≤ x ≤ right`, `bottom ≤ y ≤ top`,
`near ≤ -z ≤ far`) into `[-1,1]^3`, and sends `x = left` to -1, `x = right` to 1,
`y = bottom` to -1, `y = top` to 1, `z = -near` to -1 and `z = -far` to 1. -/
theorem makeOrthoMatrix_maps_box (left right bottom top nearp farp x y z : K)
    (hlr : left < right) (hbt : bottom < top) (hnf : nearp < farp) :
    ((makeOrthoMatrix left right bottom top nearp farp).mulVec ⟨x, y, z, 1⟩).w = 1 ∧
    (left ≤ x → x ≤ right → bottom ≤ y → y ≤ top → nearp ≤ -z → -z ≤ farp →
      (-1 ≤ ((makeOrthoMatrix left right bottom top nearp farp).mulVec ⟨x, y, z, 1⟩).x ∧
        ((makeOrthoMatrix left right bottom top nearp farp).mulVec ⟨x, y, z, 1⟩).x ≤ 1) ∧
      (-1 ≤ ((makeOrthoMatrix left right bottom top nearp farp).mulVec ⟨x, y, z, 1⟩).y ∧
        ((makeOrthoMatrix left right bottom top nearp farp).mulVec ⟨x, y, z, 1⟩).y ≤ 1) ∧
      (-1 ≤ ((makeOrthoMatrix left right bottom top nearp farp).mulVec ⟨x, y, z, 1⟩).z ∧
        ((makeOrthoMatrix left right bottom top nearp farp).mulVec ⟨x, y, z, 1⟩).z ≤ 1)) ∧
    (x = left →
      ((makeOrthoMatrix left right bottom top nearp farp).mulVec ⟨x, y, z, 1⟩).x = -1) ∧
    (x = right →
      ((makeOrthoMatrix left right bottom top nearp farp).mulVec ⟨x, y, z, 1⟩).x = 1) ∧
    (y = bottom →
      ((makeOrthoMatrix left right bottom top nearp farp).mulVec ⟨x, y, z, 1⟩).y = -1) ∧
    (y = top →
      ((makeOrthoMatrix left right bottom top nearp farp).mulVec ⟨x, y, z, 1⟩).y = 1) ∧
    (z = -nearp →
      ((makeOrthoMatrix left right bottom top nearp farp).mulVec ⟨x, y, z, 1⟩).z = -1) ∧
    (z = -farp →
      ((makeOrthoMatrix left right bottom top nearp farp).mulVec ⟨x, y, z, 1⟩).z = 1) := by
  rw [makeOrthoMatrix_mulVec]
  simp only
  have ez : ∀ w : K, -2 / (farp - nearp) * w + -(farp + nearp) / (farp - nearp) * 1
      = 2 / (farp - nearp) * (-w) + -(farp + nearp) / (farp - nearp) * 1 := by
    intro w
    ring
  refine ⟨trivial, fun h1 h2 h3 h4 h5 h6 => ⟨(ortho_axis left right x hlr).1 h1 h2,
    (ortho_axis bottom top y hbt).1 h3 h4, ?_⟩, ?_, ?_, ?_, ?_, ?_, ?_⟩
  · rw [ez]
    exact (ortho_axis nearp farp (-z) hnf).1 h5 h6
  · rintro rfl
    exact (ortho_axis x right x hlr).2.1
  · rintro rfl
    exact (ortho_axis left x x hlr).2.2
  · rintro rfl
    exact (ortho_axis y top y hbt).2.1
  · rintro rfl
    exact (ortho_axis bottom y y hbt).2.2
  · rintro rfl
    rw [ez, neg_neg]
    exact (ortho_axis nearp farp nearp hnf).2.1
  · rintro rfl
    rw [ez, neg_neg]
    exact (ortho_axis nearp farp farp hnf).2.2

/-- Witness for C10: the box `[-4,4] × [-3,3]` with depths from -50 to 50; the corner
point `(4,-3,50,1)` has `w = 1` after projection and its `x` is sent to 1. -/
theorem makeOrthoMatrix_maps_box_witness :
    ((makeOrthoMatrix (-4 : ℚ) 4 (-3) 3 (-50) 50).mulVec ⟨4, -3, 50, 1⟩).w = 1 ∧
    ((makeOrthoMatrix (-4 : ℚ) 4 (-3) 3 (-50) 50).mulVec ⟨4, -3, 50, 1⟩).x = 1 :=
  ⟨(makeOrthoMatrix_maps_box (-4 : ℚ) 4 (-3) 3 (-50) 50 4 (-3) 50
      (by norm_num) (by norm_num) (by norm_num)).1,
   (makeOrthoMatrix_maps_box (-4 : ℚ) 4 (-3) 3 (-50) 50 4 (-3) 50
      (by norm_num) (by norm_num) (by norm_num)).2.2.2.1 rfl⟩

end Projection

/-! ## Perspective projection over the reals -/

/-- C5: for `0 < fov < 180` degrees, `aspect > 0`, `0 < near < far` and a view-space
point `(x,y,z,1)` strictly inside the symmetric frustum, applying
`makePerspectiveMatrix` gives a non-zero `w`, and dividing `x`, `y`, `z` by it yields
NDC coordinates with `|x| ≤ 1`, `|y| ≤ 1`, `|z| ≤ 1`. -/
theorem perspective_divide_in_cube (fov aspect nearp farp x y z : ℝ)
    (hf0 : 0 < fov) (hf1 : fov < 180) (hasp : 0 < aspect) (hn : 0 < nearp)
    (hnf : nearp < farp) (hz1 : -farp < z) (hz2 : z < -nearp)
    (hy : |y| < -z * Real.tan (fov * Real.pi / 180 / 2))
    (hx : |x| < -z * aspect * Real.tan (fov * Real.pi / 180 / 2)) :
    ((makePerspectiveMatrix Real.pi Real.tan fov aspect nearp farp).mulVec ⟨x, y, z, 1⟩).w ≠ 0 ∧
    |(perspectiveDivide
        ((makePerspectiveMatrix Real.pi Real.tan fov aspect nearp farp).mulVec ⟨x, y, z, 1⟩)).x| ≤ 1 ∧
    |(perspectiveDivide
        ((makePerspectiveMatrix Real.pi Real.tan fov aspect nearp farp).mulVec ⟨x, y, z, 1⟩)).y| ≤ 1 ∧
    |(perspectiveDivide
        ((makePerspectiveMatrix Real.pi Real.tan fov aspect nearp farp).mulVec ⟨x, y, z, 1⟩)).z| ≤ 1 := by
  have ht : 0 < Real.tan (fov * Real.pi / 180 / 2) := by
    apply Real.tan_pos_of_pos_of_lt_pi_div_two
    · have := Real.pi_pos
      positivity
    · have := Real.pi_pos
      nlinarith
  exact perspective_ndc_of_tan_pos Real.pi Real.tan fov aspect nearp farp x y z ht hasp hn hnf
    hz1 hz2 hy hx

theorem tan_ninety_half : Real.tan (90 * Real.pi / 180 / 2) = 1 := by
  have e : (90 : ℝ) * Real.pi / 180 / 2 = Real.pi / 4 := by ring
  rw [e, Real.tan_pi_div_four]

/-- Witness for C5: `fov = 90`, `aspect = 1`, `near = 1`, `far = 3` and the point
`(1, -1, -2, 1)`, which lies strictly inside the frustum. -/
theorem perspective_divide_in_cube_witness :
    |(perspectiveDivide
        ((makePerspectiveMatrix Real.pi Real.tan 90 1 1 3).mulVec ⟨1, -1, -2, 1⟩)).x| ≤ 1 ∧
    |(perspectiveDivide
        ((makePerspectiveMatrix Real.pi Real.tan 90 1 1 3).mulVec ⟨1, -1, -2, 1⟩)).z| ≤ 1 :=
  have h := perspective_divide_in_cube 90 1 1 3 1 (-1) (-2) (by norm_num) (by norm_num)
    (by norm_num) (by norm_num) (by norm_num) (by norm_num) (by norm_num)
    (by rw [tan_ninety_half]; norm_num) (by rw [tan_ninety_half]; norm_num)
  ⟨h.2.1, h.2.2.2⟩

/-! ## The viewport mapping -/

theorem viewport_scale_nonneg {K : Type} [LinearOrderedField K] (x : K) (w : K) (hw : 0 ≤ w) (h0 : -1 ≤ x) (h1 : x ≤ 1) :
    0 ≤ (x * (1 / 2) + 1 / 2) * w ∧ (x * (1 / 2) + 1 / 2) * w ≤ w := by
  have a0 : 0 ≤ x * (1 / 2) + 1 / 2 := by linarith
  have a1 : x * (1 / 2) + 1 / 2 ≤ 1 := by linarith
  exact ⟨mul_nonneg a0 hw, by nlinarith⟩

section Viewport
variable {K : Type} [LinearOrderedField K] [FloorRing K]

theorem toInt_mono {a b : K} (h : a ≤ b) : toInt a ≤ toInt b := by
  unfold toInt
  split_ifs with ha hb hb
  · exact Int.floor_le_floor h
  · exact absurd (le_trans ha h) hb
  · push_neg at ha
    have h1 : ⌈a⌉ ≤ 0 := by
      rw [Int.ceil_le]; push_cast; exact le_of_lt ha
    have h2 : (0 : Int) ≤ ⌊b⌋ := by
      rw [Int.le_floor]; push_cast; exact hb
    exact le_trans h1 h2
  · exact Int.ceil_le_ceil h

theorem toInt_add_half_eq_roundf (u : K) (h : -(1 / 2) < u) : toInt (u + 1 / 2) = roundf u := by
  unfold toInt roundf
  have h0 : (0 : K) ≤ u + 1 / 2 := by linarith
  rw [if_pos h0]
  split_ifs with hu
  · rfl
  · push_neg at hu
    have e1 : ⌊u + 1 / 2⌋ = 0 := by
      rw [Int.floor_eq_iff]
      constructor
      · push_cast; exact h0
      · push_cast; linarith
    have e2 : ⌈u - 1 / 2⌉ = 0 := by
      rw [Int.ceil_eq_iff]
      constructor
      · push_cast; linarith
      · push_cast; linarith
    rw [e1, e2]

theorem toInt_add_half_range (u : K) (n : Int) (h0 : 0 ≤ u) (h1 : u ≤ (n : K)) :
    0 ≤ toInt (u + 1 / 2) ∧ toInt (u + 1 / 2) ≤ n := by
  unfold toInt
  have hp : (0 : K) ≤ u + 1 / 2 := by linarith
  rw [if_pos hp]
  constructor
  · rw [Int.le_floor]; push_cast; exact hp
  · have : ⌊u + 1 / 2⌋ < n + 1 := by
      rw [Int.floor_lt]; push_cast; linarith
    omega

/-- C7 (as amended): for every NDC point with `x > -1 - 1/900` and `y > -1 - 1/700`
(in particular for all `x`, `y` in `[-1,1]`), `ndcToScreen` returns
`sx = round((x*0.5+0.5)*W)` and `sy = round((y*0.5+0.5)*H)` with the rasterizer's
rounding; and for `x`, `y` in `[-1,1]` the result lies in `[0,W] × [0,H]`. -/
theorem ndcToScreen_eq_round (v : Vec4 K) :
    (-1 - 1 / 900 < v.x → -1 - 1 / 700 < v.y →
      ndcToScreen v = (roundf ((v.x * (1 / 2) + 1 / 2) * (WINDOW_W : K)),
                       roundf ((v.y * (1 / 2) + 1 / 2) * (WINDOW_H : K)))) ∧
    (-1 ≤ v.x → v.x ≤ 1 → -1 ≤ v.y → v.y ≤ 1 →
      (0 ≤ (ndcToScreen v).1 ∧ (ndcToScreen v).1 ≤ WINDOW_W) ∧
      (0 ≤ (ndcToScreen v).2 ∧ (ndcToScreen v).2 ≤ WINDOW_H)) := by
  have hW : ((WINDOW_W : Int) : K) = 900 := by simp [WINDOW_W]
  have hH : ((WINDOW_H : Int) : K) = 700 := by simp [WINDOW_H]
  refine ⟨fun hx hy => ?_, fun hx0 hx1 hy0 hy1 => ?_⟩
  · unfold ndcToScreen
    simp only
    rw [toInt_add_half_eq_roundf, toInt_add_half_eq_roundf]
    · rw [hH]; linarith
    · rw [hW]; linarith
  · unfold ndcToScreen
    simp only
    have bx := viewport_scale_nonneg v.x (WINDOW_W : K) (by rw [hW]; norm_num) hx0 hx1
    have by1 := viewport_scale_nonneg v.y (WINDOW_H : K) (by rw [hH]; norm_num) hy0 hy1
    exact ⟨toInt_add_half_range _ WINDOW_W bx.1 bx.2, toInt_add_half_range _ WINDOW_H by1.1 by1.2⟩

/-- Witness for C7 (as amended): the NDC point `(1/3, -1, 0, 1)` maps to the pixel
`(600, 0)`, the rounded values. -/
theorem ndcToScreen_eq_round_witness :
    ndcToScreen (⟨1 / 3, -1, 0, 1⟩ : Vec4 ℚ)
      = (roundf (((1 / 3 : ℚ) * (1 / 2) + 1 / 2) * (WINDOW_W : ℚ)),
         roundf (((-1 : ℚ) * (1 / 2) + 1 / 2) * (WINDOW_H : ℚ))) :=
  (ndcToScreen_eq_round (⟨1 / 3, -1, 0, 1⟩ : Vec4 ℚ)).1 (by norm_num) (by norm_num)

/-- Counterexample for C7 as stated: at the NDC point `(-226/225, 0, 0, 1)` the scaled
value is exactly -2, `ndcToScreen` returns `sx = -1`, and rounding to nearest gives -2. -/
theorem ndcToScreen_round_counterexample :
    (ndcToScreen (⟨-226 / 225, 0, 0, 1⟩ : Vec4 ℚ)).1 = -1 ∧
    roundf (((-226 / 225 : ℚ) * (1 / 2) + 1 / 2) * (WINDOW_W : ℚ)) = -2 ∧
    (ndcToScreen (⟨-226 / 225, 0, 0, 1⟩ : Vec4 ℚ)).1
      ≠ roundf (((-226 / 225 : ℚ) * (1 / 2) + 1 / 2) * (WINDOW_W : ℚ)) := by
  decide!

/-- C8 (as amended): the viewport mapping is monotonic but not strictly so: for all NDC
points `a`, `b` with `a.x ≤ b.x`, the pixel x of `a` is at most the pixel x of `b`. -/
theorem ndcToScreen_mono (a b : Vec4 K) (h : a.x ≤ b.x) :
    (ndcToScreen a).1 ≤ (ndcToScreen b).1 := by
  unfold ndcToScreen
  simp only
  apply toInt_mono
  have hW : (0 : K) ≤ ((WINDOW_W : Int) : K) := by simp [WINDOW_W]
  have : (a.x * (1 / 2) + 1 / 2) * (WINDOW_W : K) ≤ (b.x * (1 / 2) + 1 / 2) * (WINDOW_W : K) :=
    mul_le_mul_of_nonneg_right (by linarith) hW
  linarith

/-- Witness for C8 (as amended): NDC x values 0 and 1/2 map to pixel columns in order. -/
theorem ndcToScreen_mono_witness :
    (ndcToScreen (⟨0, 0, 0, 1⟩ : Vec4 ℚ)).1 ≤ (ndcToScreen (⟨1 / 2, 0, 0, 1⟩ : Vec4 ℚ)).1 :=
  ndcToScreen_mono (⟨0, 0, 0, 1⟩ : Vec4 ℚ) ⟨1 / 2, 0, 0, 1⟩ (by norm_num)

/-- Counterexample for C8 as stated: NDC x values 0 and 1/1000 are strictly ordered but
both map to pixel column 450. -/
theorem ndcToScreen_strict_mono_counterexample :
    (⟨0, 0, 0, 1⟩ : Vec4 ℚ).x < (⟨1 / 1000, 0, 0, 1⟩ : Vec4 ℚ).x ∧
    (ndcToScreen (⟨0, 0, 0, 1⟩ : Vec4 ℚ)).1 = 450 ∧
    (ndcToScreen (⟨1 / 1000, 0, 0, 1⟩ : Vec4 ℚ)).1 = 450 ∧
    ¬ ((ndcToScreen (⟨0, 0, 0, 1⟩ : Vec4 ℚ)).1 < (ndcToScreen (⟨1 / 1000, 0, 0, 1⟩ : Vec4 ℚ)).1) := by
  decide!

end Viewport

/-! ## Bounding box of the rasterized segment -/

theorem lerp_between {K : Type} [LinearOrderedField K] (a d i s : K) (hs : 0 < s)
    (hi0 : 0 ≤ i) (hi : i ≤ s) :
    min a (a + d) ≤ a + i * d / s ∧ a + i * d / s ≤ max a (a + d) := by
  rcases le_total 0 d with hd | hd
  · have h1 : 0 ≤ i * d / s := div_nonneg (mul_nonneg hi0 hd) (le_of_lt hs)
    have h2 : i * d / s ≤ d := by
      rw [div_le_iff₀ hs]
      nlinarith
    rw [min_eq_left (by linarith), max_eq_right (by linarith)]
    constructor <;> linarith
  · have h1 : i * d / s ≤ 0 := by
      rw [div_le_iff₀ hs]
      nlinarith
    have h2 : d ≤ i * d / s := by
      rw [le_div_iff₀ hs]
      nlinarith
    rw [min_eq_right (by linarith), max_eq_left (by linarith)]
    constructor <;> linarith

section Box
variable {K : Type} [LinearOrderedField K] [FloorRing K]

theorem roundf_between (a b : Int) (u : K) (h1 : ((min a b : Int) : K) ≤ u)
    (h2 : u ≤ ((max a b : Int) : K)) : min a b ≤ roundf u ∧ roundf u ≤ max a b := by
  have e1 := roundf_mono h1
  have e2 := roundf_mono h2
  rw [roundf_intCast] at e1 e2
  exact ⟨e1, e2⟩

theorem roundf_lerp_between (a b : Int) (i : Nat) (s : Int) (hs : 0 < s) (hi : (i : Int) ≤ s) :
    min a b ≤ roundf ((a : K) + (i : K) * ((b - a : Int) : K) / (s : K)) ∧
    roundf ((a : K) + (i : K) * ((b - a : Int) : K) / (s : K)) ≤ max a b := by
  apply roundf_between
  · have h := (lerp_between (a : K) ((b - a : Int) : K) (i : K) (s : K)
      (by exact_mod_cast hs) (Nat.cast_nonneg i) (by exact_mod_cast hi)).1
    have e : (a : K) + ((b - a : Int) : K) = (b : K) := by push_cast; ring
    rw [e] at h
    rw [Int.cast_min]
    exact h
  · have h := (lerp_between (a : K) ((b - a : Int) : K) (i : K) (s : K)
      (by exact_mod_cast hs) (Nat.cast_nonneg i) (by exact_mod_cast hi)).2
    have e : (a : K) + ((b - a : Int) : K) = (b : K) := by push_cast; ring
    rw [e] at h
    rw [Int.cast_max]
    exact h

theorem drawLineDDA_mem_bounds (x0 y0 x1 y1 : Int) (p : Int × Int)
    (hp : p ∈ drawLineDDA K x0 y0 x1 y1) :
    (min x0 x1 ≤ p.1 ∧ p.1 ≤ max x0 x1) ∧ (min y0 y1 ≤ p.2 ∧ p.2 ≤ max y0 y1) := by
  rcases eq_or_lt_of_le (le_max_of_le_left (abs_nonneg (x1 - x0)) :
      (0 : Int) ≤ max |x1 - x0| |y1 - y0|) with h0 | h0
  · rw [drawLineDDA_zero K _ _ _ _ h0.symm, List.mem_singleton] at hp
    subst hp
    simp
  · rw [drawLineDDA_eq_map K _ _ _ _ h0, List.mem_map] at hp
    obtain ⟨i, hi, rfl⟩ := hp
    rw [List.mem_range] at hi
    have hi2 : (i : Int) ≤ max |x1 - x0| |y1 - y0| := by omega
    exact ⟨roundf_lerp_between x0 x1 i _ h0 hi2, roundf_lerp_between y0 y1 i _ h0 hi2⟩

end Box

/-! ## The end-to-end cube scenario -/

theorem identity_mul_translate_mulVec {K : Type} [LinearOrderedField K] (tx ty tz x y z : K) :
    ((Mat4.identity.mul (translate tx ty tz)).mulVec (makeVec x y z))
      = ⟨x + tx, y + ty, z + tz, 1⟩ := by
  simp [Mat4.mul, Mat4.identity, translate, Mat4.set, Mat4.zero, Mat4.mulVec, makeVec]

theorem scene_clip_eq {K : Type} [LinearOrderedField K] (pi : K) (tanf : K → K) (x y z : K) :
    (makePerspectiveMatrix pi tanf 60 (900 / 700) (1 / 10) 100).mulVec
        ((Mat4.identity.mul (translate (-5 / 2) 0 (-8))).mulVec (makeVec x y z))
      = ⟨1 / tanf (60 * pi / 180 / 2) / (900 / 700) * (x + -5 / 2),
         1 / tanf (60 * pi / 180 / 2) * (y + 0),
         (100 + 1 / 10) / (1 / 10 - 100) * (z + -8) + (2 * 100 * (1 / 10)) / (1 / 10 - 100) * 1,
         -(z + -8)⟩ := by
  rw [identity_mul_translate_mulVec, makePerspectiveMatrix_mulVec]

theorem vertAt_of_lt {K : Type} (verts : List (Vec4 K)) (i : Int) (h0 : 0 ≤ i)
    (h1 : i < verts.length) : ∃ a, vertAt verts i = some a ∧ a ∈ verts := by
  have hlt : i.toNat < verts.length := by omega
  refine ⟨verts[i.toNat], ?_, List.getElem_mem _⟩
  unfold vertAt
  rw [if_pos h0, List.getElem?_eq_getElem hlt]

theorem cubeObj_edges_in_range {K : Type} [LinearOrderedField K] :
    ∀ e ∈ (cubeObj : Object3D K).edges,
      (0 ≤ e.1 ∧ e.1 < ((cubeObj : Object3D K).verts.length : Int)) ∧
      (0 ≤ e.2 ∧ e.2 < ((cubeObj : Object3D K).verts.length : Int)) := by
  simp [cubeObj]

theorem cubeObj_verts_in_cube {K : Type} [LinearOrderedField K] :
    ∀ v ∈ (cubeObj : Object3D K).verts,
      ∃ x y z : K, (-1 ≤ x ∧ x ≤ 1) ∧ (-1 ≤ y ∧ y ≤ 1) ∧ (-1 ≤ z ∧ z ≤ 1) ∧ v = makeVec x y z := by
  intro v hv
  simp only [cubeObj, List.mem_cons, List.mem_singleton, List.not_mem_nil, or_false] at hv
  rcases hv with h | h | h | h | h | h | h | h <;>
    exact ⟨_, _, _, by norm_num, by norm_num, by norm_num, h⟩

theorem projectionMatrix_initialState {K : Type} [LinearOrderedField K] (pi : K) (tanf : K → K) :
    projectionMatrix pi tanf (initialState : State K)
      = makePerspectiveMatrix pi tanf 60 (900 / 700) (1 / 10) 100 := by
  simp [projectionMatrix, initialState, WINDOW_W, WINDOW_H]

section Scenario
variable {K : Type} [LinearOrderedField K] [FloorRing K]

theorem toInt_add_half_lt (u : K) (n : Int) (h0 : 0 ≤ u) (h1 : u + 1 / 2 < (n : K)) :
    0 ≤ toInt (u + 1 / 2) ∧ toInt (u + 1 / 2) < n := by
  unfold toInt
  have hp : (0 : K) ≤ u + 1 / 2 := by linarith
  rw [if_pos hp]
  constructor
  · rw [Int.le_floor]; push_cast; exact hp
  · rw [Int.floor_lt]; exact h1

theorem ndcToScreen_in_window (v : Vec4 K) (hx0 : -1 ≤ v.x) (hx1 : v.x ≤ 9 / 10)
    (hy0 : -1 ≤ v.y) (hy1 : v.y ≤ 9 / 10) :
    (0 ≤ (ndcToScreen v).1 ∧ (ndcToScreen v).1 < 900) ∧
    (0 ≤ (ndcToScreen v).2 ∧ (ndcToScreen v).2 < 700) := by
  unfold ndcToScreen
  simp only
  have hW : ((WINDOW_W : Int) : K) = 900 := by simp [WINDOW_W]
  have hH : ((WINDOW_H : Int) : K) = 700 := by simp [WINDOW_H]
  rw [hW, hH]
  constructor
  · apply toInt_add_half_lt
    · nlinarith
    · push_cast; linarith
  · apply toInt_add_half_lt
    · nlinarith
    · push_cast; linarith

theorem renderEdge_in_window (cs : Bool) (P M : Mat4 K) (a b : Vec4 K)
    (hw0 : (P.mulVec (M.mulVec a)).w ≠ 0) (hw1 : (P.mulVec (M.mulVec b)).w ≠ 0)
    (ho0 : outside (perspectiveDivide (P.mulVec (M.mulVec a))) = 0)
    (hs0 : (0 ≤ (ndcToScreen (perspectiveDivide (P.mulVec (M.mulVec a)))).1 ∧
            (ndcToScreen (perspectiveDivide (P.mulVec (M.mulVec a)))).1 < 900) ∧
           (0 ≤ (ndcToScreen (perspectiveDivide (P.mulVec (M.mulVec a)))).2 ∧
            (ndcToScreen (perspectiveDivide (P.mulVec (M.mulVec a)))).2 < 700))
    (hs1 : (0 ≤ (ndcToScreen (perspectiveDivide (P.mulVec (M.mulVec b)))).1 ∧
            (ndcToScreen (perspectiveDivide (P.mulVec (M.mulVec b)))).1 < 900) ∧
           (0 ≤ (ndcToScreen (perspectiveDivide (P.mulVec (M.mulVec b)))).2 ∧
            (ndcToScreen (perspectiveDivide (P.mulVec (M.mulVec b)))).2 < 700)) :
    renderEdge cs P M a b ≠ [] ∧
    ∀ q ∈ renderEdge cs P M a b, (0 ≤ q.1.1 ∧ q.1.1 < 900) ∧ (0 ≤ q.1.2 ∧ q.1.2 < 700) := by
  have hacc := renderEdge_of_accept cs P M a b hw0 hw1 (by rw [ho0, Nat.zero_and])
  constructor
  · intro hnil
    rw [hnil, List.map_nil] at hacc
    exact drawLineDDA_ne_nil _ _ _ _ hacc.symm
  · intro q hq
    have hmem : q.1 ∈ (renderEdge cs P M a b).map Prod.fst := List.mem_map_of_mem _ hq
    rw [hacc] at hmem
    have hb := drawLineDDA_mem_bounds _ _ _ _ _ hmem
    obtain ⟨⟨bx0, bx1⟩, ⟨by0, by1⟩⟩ := hb
    obtain ⟨⟨ax0, ax1⟩, ⟨ay0, ay1⟩⟩ := hs0
    obtain ⟨⟨cx0, cx1⟩, ⟨cy0, cy1⟩⟩ := hs1
    refine ⟨⟨le_trans (le_min ax0 cx0) bx0, lt_of_le_of_lt bx1 (max_lt ax1 cx1)⟩,
      ⟨le_trans (le_min ay0 cy0) by0, lt_of_le_of_lt by1 (max_lt ay1 cy1)⟩⟩

theorem scene_vertex (pi : K) (tanf : K → K) (ht : 1 / 2 < tanf (60 * pi / 180 / 2))
    (x y z : K) (hx0 : -1 ≤ x) (hx1 : x ≤ 1) (hy0 : -1 ≤ y) (hy1 : y ≤ 1)
    (hz0 : -1 ≤ z) (hz1 : z ≤ 1) :
    ((makePerspectiveMatrix pi tanf 60 (900 / 700) (1 / 10) 100).mulVec
        ((Mat4.identity.mul (translate (-5 / 2) 0 (-8))).mulVec (makeVec x y z))).w ≠ 0 ∧
    outside (perspectiveDivide ((makePerspectiveMatrix pi tanf 60 (900 / 700) (1 / 10) 100).mulVec
        ((Mat4.identity.mul (translate (-5 / 2) 0 (-8))).mulVec (makeVec x y z)))) = 0 ∧
    ((0 ≤ (ndcToScreen (perspectiveDivide
        ((makePerspectiveMatrix pi tanf 60 (900 / 700) (1 / 10) 100).mulVec
        ((Mat4.identity.mul (translate (-5 / 2) 0 (-8))).mulVec (makeVec x y z))))).1 ∧
      (ndcToScreen (perspectiveDivide
        ((makePerspectiveMatrix pi tanf 60 (900 / 700) (1 / 10) 100).mulVec
        ((Mat4.identity.mul (translate (-5 / 2) 0 (-8))).mulVec (makeVec x y z))))).1 < 900) ∧
     (0 ≤ (ndcToScreen (perspectiveDivide
        ((makePerspectiveMatrix pi tanf 60 (900 / 700) (1 / 10) 100).mulVec
        ((Mat4.identity.mul (translate (-5 / 2) 0 (-8))).mulVec (makeVec x y z))))).2 ∧
      (ndcToScreen (perspectiveDivide
        ((makePerspectiveMatrix pi tanf 60 (900 / 700) (1 / 10) 100).mulVec
        ((Mat4.identity.mul (translate (-5 / 2) 0 (-8))).mulVec (makeVec x y z))))).2 < 700)) := by
  rw [scene_clip_eq]
  have ht0 : 0 < tanf (60 * pi / 180 / 2) := by linarith
  have hg0 : 0 < 1 / tanf (60 * pi / 180 / 2) := div_pos one_pos ht0
  have hg2 : 1 / tanf (60 * pi / 180 / 2) < 2 := by
    rw [div_lt_iff₀ ht0]
    linarith
  generalize 1 / tanf (60 * pi / 180 / 2) = g at hg0 hg2
  have hw : 0 < -(z + -8) := by linarith
  have bx0 : -1 ≤ g / (900 / 700) * (x + -5 / 2) / -(z + -8) := by
    rw [le_div_iff₀ hw]
    have e : g / (900 / 700) * (x + -5 / 2) = -(7 / 9 * (g * (5 / 2 - x))) := by
      field_simp
      ring
    rw [e]
    have h1 : g * (5 / 2 - x) ≤ 2 * (7 / 2) :=
      mul_le_mul (le_of_lt hg2) (by linarith) (by linarith) (by norm_num)
    linarith
  have bx1 : g / (900 / 700) * (x + -5 / 2) / -(z + -8) ≤ 9 / 10 := by
    have h1 : g / (900 / 700) * (x + -5 / 2) / -(z + -8) ≤ 0 :=
      div_nonpos_of_nonpos_of_nonneg
        (mul_nonpos_of_nonneg_of_nonpos (le_of_lt (div_pos hg0 (by norm_num))) (by linarith))
        (le_of_lt hw)
    linarith
  have by0 : -1 ≤ g * (y + 0) / -(z + -8) := by
    rw [le_div_iff₀ hw]
    have h1 : -(g * 1) ≤ g * (y + 0) := by
      have := mul_le_mul_of_nonneg_left (show -1 ≤ y + 0 by linarith) (le_of_lt hg0)
      linarith
    linarith
  have by1 : g * (y + 0) / -(z + -8) ≤ 9 / 10 := by
    rw [div_le_iff₀ hw]
    have h1 : g * (y + 0) ≤ g * 1 :=
      mul_le_mul_of_nonneg_left (by linarith) (le_of_lt hg0)
    linarith
  have ez : (100 + 1 / 10 : K) / (1 / 10 - 100) * (z + -8) + (2 * 100 * (1 / 10)) / (1 / 10 - 100) * 1
      = (1001 * -(z + -8) - 200) / 999 := by
    norm_num
    ring
  have bz0 : -1 ≤ ((100 + 1 / 10 : K) / (1 / 10 - 100) * (z + -8)
      + (2 * 100 * (1 / 10)) / (1 / 10 - 100) * 1) / -(z + -8) := by
    rw [ez, le_div_iff₀ hw, le_div_iff₀ (by norm_num)]
    linarith
  have bz1 : ((100 + 1 / 10 : K) / (1 / 10 - 100) * (z + -8)
      + (2 * 100 * (1 / 10)) / (1 / 10 - 100) * 1) / -(z + -8) ≤ 1 := by
    rw [ez, div_le_iff₀ hw, div_le_iff₀ (by norm_num)]
    linarith
  refine ⟨ne_of_gt hw, ?_, ?_⟩
  · rw [outside_eq_zero_iff]
    simp only [perspectiveDivide]
    exact ⟨⟨bx0, le_trans bx1 (by norm_num)⟩, ⟨by0, le_trans by1 (by norm_num)⟩, ⟨bz0, bz1⟩⟩
  · apply ndcToScreen_in_window
    · exact bx0
    · exact bx1
    · exact by0
    · exact by1

theorem renderEdgeLoop_forall (cs : Bool) (P M : Mat4 K) (verts : List (Vec4 K))
    (edges : List (Int × Int)) (Q : List ((Int × Int) × Color K) → Prop)
    (h : ∀ e ∈ edges, ∃ a b, vertAt verts e.1 = some a ∧ vertAt verts e.2 = some b ∧
      Q (renderEdge cs P M a b)) :
    ∃ groups, renderEdgeLoop cs P verts M edges = some groups ∧
      groups.length = edges.length ∧ ∀ g ∈ groups, Q g := by
  induction edges with
  | nil => exact ⟨[], rfl, rfl, by simp⟩
  | cons e es ih =>
    obtain ⟨gs, hgs, hlen, hall⟩ := ih (fun e2 he2 => h e2 (List.mem_cons_of_mem _ he2))
    obtain ⟨a, b, ha, hb, hq⟩ := h e (List.mem_cons_self _ _)
    refine ⟨renderEdge cs P M a b :: gs, ?_, by simp [hlen], ?_⟩
    · simp only [renderEdgeLoop, ha, hb, hgs]
    · intro g hg
      rcases List.mem_cons.mp hg with rfl | hg2
      · exact hq
      · exact hall g hg2

theorem cube_scenario_of_tan (pi : K) (tanf : K → K) (ht : 1 / 2 < tanf (60 * pi / 180 / 2)) :
    ∃ groups, renderObject pi tanf (initialState : State K) cubeObj
        (cubeModelMatrix initialState) = some groups ∧
      groups.length = 12 ∧
      ∀ g ∈ groups, g ≠ [] ∧
        ∀ q ∈ g, (0 ≤ q.1.1 ∧ q.1.1 < 900) ∧ (0 ≤ q.1.2 ∧ q.1.2 < 700) := by
  unfold renderObject renderEdges
  rw [projectionMatrix_initialState]
  have hM : cubeModelMatrix (initialState : State K)
      = Mat4.identity.mul (translate (-5 / 2) 0 (-8)) := rfl
  rw [hM]
  have hlen : ((cubeObj : Object3D K).edges).length = 12 := rfl
  rw [← hlen]
  apply renderEdgeLoop_forall
  intro e he
  obtain ⟨⟨a0, a1⟩, ⟨b0, b1⟩⟩ := cubeObj_edges_in_range e he
  obtain ⟨a, ha, hamem⟩ := vertAt_of_lt _ e.1 a0 a1
  obtain ⟨b, hb, hbmem⟩ := vertAt_of_lt _ e.2 b0 b1
  obtain ⟨x, y, z, hx, hy, hz, rfl⟩ := cubeObj_verts_in_cube a hamem
  obtain ⟨x2, y2, z2, hx2, hy2, hz2, rfl⟩ := cubeObj_verts_in_cube b hbmem
  refine ⟨_, _, ha, hb, ?_⟩
  have va := scene_vertex pi tanf ht x y z hx.1 hx.2 hy.1 hy.2 hz.1 hz.2
  have vb := scene_vertex pi tanf ht x2 y2 z2 hx2.1 hx2.2 hy2.1 hy2.2 hz2.1 hz2.2
  exact renderEdge_in_window _ _ _ _ _ va.1 vb.1 va.2.1 va.2.2 vb.2.2

end Scenario

theorem half_lt_tan_sixty_half : (1 / 2 : ℝ) < Real.tan (60 * Real.pi / 180 / 2) := by
  have e : (60 : ℝ) * Real.pi / 180 / 2 = Real.pi / 6 := by ring
  rw [e, Real.tan_pi_div_six]
  have h3 : (0 : ℝ) < Real.sqrt 3 := Real.sqrt_pos.mpr (by norm_num)
  have h2 : Real.sqrt 3 < 2 := by
    rw [Real.sqrt_lt' (by norm_num)]
    norm_num
  rw [lt_div_iff₀ h3]
  linarith

/-- C6: rendering `cubeObj()` with model matrix `identity * translate(-2.5,0,-8)` under
the default perspective projection (fov 60 degrees, aspect 900/700, near 0.1, far 100)
rejects none of the 12 edges: every edge yields a non-empty point sequence and every
emitted pixel satisfies `0 ≤ px < 900` and `0 ≤ py < 700`. -/
theorem cube_scenario_in_window :
    ∃ groups, renderObject Real.pi Real.tan (initialState : State ℝ) cubeObj
        (cubeModelMatrix initialState) = some groups ∧
      groups.length = 12 ∧
      ∀ g ∈ groups, g ≠ [] ∧
        ∀ q ∈ g, (0 ≤ q.1.1 ∧ q.1.1 < 900) ∧ (0 ≤ q.1.2 ∧ q.1.2 < 700) :=
  cube_scenario_of_tan Real.pi Real.tan half_lt_tan_sixty_half

/-! ## Matrix algebra -/

theorem Vec4.ext_components {K : Type} {u v : Vec4 K} (hx : u.x = v.x) (hy : u.y = v.y) (hz : u.z = v.z)
    (hw : u.w = v.w) : u = v := by
  cases u
  cases v
  simp only [Vec4.mk.injEq]
  exact ⟨hx, hy, hz, hw⟩

section Algebra
variable {K : Type} [LinearOrderedField K]

theorem Mat4.mul_entry_assoc (A B C : Mat4 K) (i j : Fin 4) :
    ((A.mul B).mul C).m i j = (A.mul (B.mul C)).m i j := by
  simp only [Mat4.mul]
  ring

theorem translate_mulVec (tx ty tz : K) (v : Vec4 K) :
    (translate tx ty tz).mulVec v
      = ⟨v.x + tx * v.w, v.y + ty * v.w, v.z + tz * v.w, v.w⟩ := by
  simp [translate, Mat4.identity, Mat4.mulVec, Mat4.set, Mat4.zero]

theorem rotateZ_mulVec (pi : K) (cosf sinf : K → K) (deg : K) (v : Vec4 K) :
    (rotateZ pi cosf sinf deg).mulVec v
      = ⟨cosf (deg * pi / 180) * v.x + -sinf (deg * pi / 180) * v.y,
         sinf (deg * pi / 180) * v.x + cosf (deg * pi / 180) * v.y, v.z, v.w⟩ := by
  simp [rotateZ, Mat4.identity, Mat4.mulVec, Mat4.set, Mat4.zero]

/-- C11: matrix composition is associative: `(A*B)*C = A*(B*C)` under
`Mat4::operator*(Mat4)`, entry by entry. -/
theorem mat4_mul_assoc (A B C : Mat4 K) :
    (∀ i j : Fin 4, ((A.mul B).mul C).m i j = (A.mul (B.mul C)).m i j) ∧
    (A.mul B).mul C = A.mul (B.mul C) := by
  refine ⟨Mat4.mul_entry_assoc A B C, ?_⟩
  have h : ((A.mul B).mul C).m = (A.mul (B.mul C)).m := by
    funext i j
    exact Mat4.mul_entry_assoc A B C i j
  cases hL : (A.mul B).mul C
  cases hR : A.mul (B.mul C)
  rw [hL, hR] at h
  simp only at h
  rw [h]

/-- C12: composition applies the rightmost transform first: `(A*B)*v = A*(B*v)`, the
product being `Mat4::operator*(Mat4)` and the applications `Mat4::operator*(Vec4)`. -/
theorem mat4_mul_mulVec (A B : Mat4 K) (v : Vec4 K) :
    (A.mul B).mulVec v = A.mulVec (B.mulVec v) := by
  apply Vec4.ext_components <;> simp only [Mat4.mul, Mat4.mulVec] <;> ring

/-- C13: `translate(tx,ty,tz)` applied to the point `(x,y,z,1)` yields
`(x+tx, y+ty, z+tz, 1)`; in particular the origin maps to `(tx,ty,tz,1)`. -/
theorem translate_point (tx ty tz x y z : K) :
    (translate tx ty tz).mulVec ⟨x, y, z, 1⟩ = ⟨x + tx, y + ty, z + tz, 1⟩ ∧
    (translate tx ty tz).mulVec (makeVec x y z) = makeVec (x + tx) (y + ty) (z + tz) ∧
    (translate tx ty tz).mulVec ⟨0, 0, 0, 1⟩ = ⟨tx, ty, tz, 1⟩ := by
  refine ⟨?_, ?_, ?_⟩
  · rw [translate_mulVec]
    simp
  · rw [translate_mulVec]
    simp [makeVec]
  · rw [translate_mulVec]
    simp

/-- C15: `Mat4::identity()` applied to any vector `v` returns `v` unchanged. -/
theorem identity_mulVec (v : Vec4 K) : (Mat4.identity : Mat4 K).mulVec v = v := by
  apply Vec4.ext_components <;> simp [Mat4.identity, Mat4.mulVec, Mat4.set, Mat4.zero]

end Algebra

/-! ## Rotation about the z axis, over the reals -/

/-- C14: `rotateZ(d)` applied to `(x,y,z,1)` yields
`(x*cos t - y*sin t, x*sin t + y*cos t, z, 1)` with `t = d*pi/180`, a counter-clockwise
rotation about the z axis; in particular `rotateZ(90)` applied to `(1,0,0,1)` yields
`(0,1,0,1)`. -/
theorem rotateZ_point (d x y z : ℝ) :
    (rotateZ Real.pi Real.cos Real.sin d).mulVec ⟨x, y, z, 1⟩
      = ⟨x * Real.cos (d * Real.pi / 180) - y * Real.sin (d * Real.pi / 180),
         x * Real.sin (d * Real.pi / 180) + y * Real.cos (d * Real.pi / 180), z, 1⟩ ∧
    (rotateZ Real.pi Real.cos Real.sin 90).mulVec ⟨1, 0, 0, 1⟩ = ⟨0, 1, 0, 1⟩ := by
  constructor
  · rw [rotateZ_mulVec]
    apply Vec4.ext_components <;> simp only <;> ring
  · rw [rotateZ_mulVec]
    have e : (90 : ℝ) * Real.pi / 180 = Real.pi / 2 := by ring
    rw [e, Real.cos_pi_div_two, Real.sin_pi_div_two]
    apply Vec4.ext_components <;> simp

/-! ## Edge shading -/

section Shade
variable {K : Type} [LinearOrderedField K]

theorem edgeShade_eq (z0 z1 : K) :
    edgeShade z0 z1 = max 0 (min 1 (1 - ((z0 + z1) / 2 + 1) / 2)) := by
  unfold edgeShade
  simp only
  congr 3
  ring

/-- C16: the shade value `clamp(1 - ((z0+z1)/2 + 1)/2, 0, 1)` computed by `renderObject`
lies in `[0,1]`, equals 1 when the average depth is -1 and 0 when it is 1, and is
non-increasing in the average depth. -/
theorem edgeShade_range_mono (z0 z1 : K) :
    edgeShade z0 z1 = max 0 (min 1 (1 - ((z0 + z1) / 2 + 1) / 2)) ∧
    (0 ≤ edgeShade z0 z1 ∧ edgeShade z0 z1 ≤ 1) ∧
    ((z0 + z1) / 2 = -1 → edgeShade z0 z1 = 1) ∧
    ((z0 + z1) / 2 = 1 → edgeShade z0 z1 = 0) ∧
    (∀ u0 u1 : K, (z0 + z1) / 2 ≤ (u0 + u1) / 2 → edgeShade u0 u1 ≤ edgeShade z0 z1) := by
  refine ⟨edgeShade_eq z0 z1, ⟨?_, ?_⟩, ?_, ?_, ?_⟩
  · rw [edgeShade_eq]
    exact le_max_left _ _
  · rw [edgeShade_eq]
    exact max_le (by norm_num) (min_le_left _ _)
  · intro h
    rw [edgeShade_eq, h]
    norm_num
  · intro h
    rw [edgeShade_eq, h]
    norm_num
  · intro u0 u1 h
    rw [edgeShade_eq, edgeShade_eq]
    apply max_le_max (le_refl _)
    apply min_le_min (le_refl _)
    linarith

/-- Witness for C16: endpoint depths `-1` and `-1` (average -1) give shade 1, depths
`1/2` and `3/2` (average 1) give shade 0, and the deeper pair has the smaller shade. -/
theorem edgeShade_range_mono_witness :
    edgeShade (-1 : ℚ) (-1) = 1 ∧ edgeShade (1 / 2 : ℚ) (3 / 2) = 0 ∧
    edgeShade (1 / 2 : ℚ) (3 / 2) ≤ edgeShade (-1 : ℚ) (-1) :=
  ⟨(edgeShade_range_mono (-1 : ℚ) (-1)).2.2.1 (by norm_num),
   (edgeShade_range_mono (1 / 2 : ℚ) (3 / 2)).2.2.2.1 (by norm_num),
   (edgeShade_range_mono (-1 : ℚ) (-1)).2.2.2.2 (1 / 2) (3 / 2) (by norm_num)⟩

end Shade

/-! ## Edge indices of the scene objects -/

theorem pyramidObj_edges_in_range {K : Type} [LinearOrderedField K] :
    ∀ e ∈ (pyramidObj : Object3D K).edges,
      (0 ≤ e.1 ∧ e.1 < ((pyramidObj : Object3D K).verts.length : Int)) ∧
      (0 ≤ e.2 ∧ e.2 < ((pyramidObj : Object3D K).verts.length : Int)) := by
  simp [pyramidObj]

theorem vertAt_isSome_of_lt {K : Type} (verts : List (Vec4 K)) (i : Int) (h0 : 0 ≤ i)
    (h1 : i < verts.length) : (vertAt verts i).isSome = true := by
  obtain ⟨a, ha, _⟩ := vertAt_of_lt verts i h0 h1
  rw [ha]
  rfl

section Indices
variable (K : Type) [LinearOrderedField K] [FloorRing K]

theorem renderEdges_isSome_of_in_range (cs : Bool) (P M : Mat4 K) (obj : Object3D K)
    (h : ∀ e ∈ obj.edges, (0 ≤ e.1 ∧ e.1 < (obj.verts.length : Int)) ∧
      (0 ≤ e.2 ∧ e.2 < (obj.verts.length : Int))) :
    (renderEdges cs P obj M).isSome = true := by
  unfold renderEdges
  obtain ⟨groups, hg, _, _⟩ := renderEdgeLoop_forall cs P M obj.verts obj.edges (fun _ => True)
    (fun e he => by
      obtain ⟨a, ha, _⟩ := vertAt_of_lt obj.verts e.1 (h e he).1.1 (h e he).1.2
      obtain ⟨b, hb, _⟩ := vertAt_of_lt obj.verts e.2 (h e he).2.1 (h e he).2.2
      exact ⟨a, b, ha, hb, trivial⟩)
  rw [hg]
  rfl

/-- C18: every edge index of `cubeObj()` (8 vertices, 12 edges) and of `pyramidObj()`
(5 vertices, 8 edges) is in range, `0 ≤ a < |verts|` and `0 ≤ b < |verts|`, so the vertex
lookups `obj.verts[e.first]` and `obj.verts[e.second]` of `renderObject` never fail for
these objects. -/
theorem scene_edge_indices_in_range :
    ((cubeObj : Object3D K).verts.length = 8 ∧ (cubeObj : Object3D K).edges.length = 12 ∧
      ∀ e ∈ (cubeObj : Object3D K).edges,
        (0 ≤ e.1 ∧ e.1 < ((cubeObj : Object3D K).verts.length : Int)) ∧
        (0 ≤ e.2 ∧ e.2 < ((cubeObj : Object3D K).verts.length : Int)) ∧
        (vertAt (cubeObj : Object3D K).verts e.1).isSome = true ∧
        (vertAt (cubeObj : Object3D K).verts e.2).isSome = true) ∧
    ((pyramidObj : Object3D K).verts.length = 5 ∧ (pyramidObj : Object3D K).edges.length = 8 ∧
      ∀ e ∈ (pyramidObj : Object3D K).edges,
        (0 ≤ e.1 ∧ e.1 < ((pyramidObj : Object3D K).verts.length : Int)) ∧
        (0 ≤ e.2 ∧ e.2 < ((pyramidObj : Object3D K).verts.length : Int)) ∧
        (vertAt (pyramidObj : Object3D K).verts e.1).isSome = true ∧
        (vertAt (pyramidObj : Object3D K).verts e.2).isSome = true) ∧
    (∀ (cs : Bool) (P M : Mat4 K),
      (renderEdges cs P cubeObj M).isSome = true ∧
      (renderEdges cs P pyramidObj M).isSome = true) := by
  refine ⟨⟨rfl, rfl, fun e he => ?_⟩, ⟨rfl, rfl, fun e he => ?_⟩, fun cs P M => ⟨?_, ?_⟩⟩
  · have h := cubeObj_edges_in_range (K := K) e he
    exact ⟨h.1, h.2, vertAt_isSome_of_lt _ _ h.1.1 h.1.2, vertAt_isSome_of_lt _ _ h.2.1 h.2.2⟩
  · have h := pyramidObj_edges_in_range (K := K) e he
    exact ⟨h.1, h.2, vertAt_isSome_of_lt _ _ h.1.1 h.1.2, vertAt_isSome_of_lt _ _ h.2.1 h.2.2⟩
  · exact renderEdges_isSome_of_in_range K cs P M cubeObj cubeObj_edges_in_range
  · exact renderEdges_isSome_of_in_range K cs P M pyramidObj pyramidObj_edges_in_range

/-- Witness for C18: the cube edge `(3,7)` and the pyramid edge `(2,4)` have both
vertex lookups defined. -/
theorem scene_edge_indices_in_range_witness :
    ((vertAt (cubeObj : Object3D ℚ).verts 3).isSome = true ∧
      (vertAt (cubeObj : Object3D ℚ).verts 7).isSome = true) ∧
    ((vertAt (pyramidObj : Object3D ℚ).verts 2).isSome = true ∧
      (vertAt (pyramidObj : Object3D ℚ).verts 4).isSome = true) :=
  ⟨((scene_edge_indices_in_range ℚ).1.2.2 (3, 7) (by simp [cubeObj])).2.2,
   ((scene_edge_indices_in_range ℚ).2.1.2.2 (2, 4) (by simp [pyramidObj])).2.2⟩

end Indices

/-! ## The accumulated model transform -/

section Model
variable {K : Type} [LinearOrderedField K]

theorem Mat4.bottomRowUnit_mul {A B : Mat4 K} (hA : A.bottomRowUnit) (hB : B.bottomRowUnit) :
    (A.mul B).bottomRowUnit := by
  obtain ⟨a0, a1, a2, a3⟩ := hA
  obtain ⟨b0, b1, b2, b3⟩ := hB
  simp only [Mat4.bottomRowUnit, Mat4.mul, a0, a1, a2, a3, b0, b1, b2, b3]
  simp

theorem Mat4.bottomRowUnit_identity : (Mat4.identity : Mat4 K).bottomRowUnit := by
  simp [Mat4.bottomRowUnit, Mat4.identity, Mat4.set, Mat4.zero]

theorem translate_bottomRowUnit (tx ty tz : K) : (translate tx ty tz).bottomRowUnit := by
  simp [Mat4.bottomRowUnit, translate, Mat4.identity, Mat4.set, Mat4.zero]

theorem scaleM_bottomRowUnit (sx sy sz : K) : (scaleM sx sy sz).bottomRowUnit := by
  simp [Mat4.bottomRowUnit, scaleM, Mat4.set, Mat4.zero]

theorem rotateX_bottomRowUnit (pi : K) (cosf sinf : K → K) (deg : K) :
    (rotateX pi cosf sinf deg).bottomRowUnit := by
  simp [Mat4.bottomRowUnit, rotateX, Mat4.identity, Mat4.set, Mat4.zero]

theorem rotateY_bottomRowUnit (pi : K) (cosf sinf : K → K) (deg : K) :
    (rotateY pi cosf sinf deg).bottomRowUnit := by
  simp [Mat4.bottomRowUnit, rotateY, Mat4.identity, Mat4.set, Mat4.zero]

theorem rotateZ_bottomRowUnit (pi : K) (cosf sinf : K → K) (deg : K) :
    (rotateZ pi cosf sinf deg).bottomRowUnit := by
  simp [Mat4.bottomRowUnit, rotateZ, Mat4.identity, Mat4.set, Mat4.zero]

theorem Mat4.bottomRowUnit_mulVec_w {A : Mat4 K} (hA : A.bottomRowUnit) (v : Vec4 K) :
    (A.mulVec v).w = v.w := by
  obtain ⟨a0, a1, a2, a3⟩ := hA
  simp [Mat4.mulVec, a0, a1, a2, a3]

theorem Mat4.bottomRowUnit_ite (c : Prop) [Decidable c] {T M : Mat4 K}
    (hT : T.bottomRowUnit) (hM : M.bottomRowUnit) :
    (if c then T.mul M else M).bottomRowUnit := by
  split_ifs
  · exact Mat4.bottomRowUnit_mul hT hM
  · exact hM

theorem specialKey_bottomRowUnit (key : Int) (st : State K) (h : st.model.bottomRowUnit) :
    (specialKey key st).model.bottomRowUnit := by
  unfold specialKey
  simp only
  exact Mat4.bottomRowUnit_ite _ (translate_bottomRowUnit _ _ _)
    (Mat4.bottomRowUnit_ite _ (translate_bottomRowUnit _ _ _)
      (Mat4.bottomRowUnit_ite _ (translate_bottomRowUnit _ _ _)
        (Mat4.bottomRowUnit_ite _ (translate_bottomRowUnit _ _ _)
          (Mat4.bottomRowUnit_ite _ (translate_bottomRowUnit _ _ _)
            (Mat4.bottomRowUnit_ite _ (translate_bottomRowUnit _ _ _) h)))))

theorem keyboard_cases (pi : K) (cosf sinf : K → K) (key : Char) (st st2 : State K)
    (hk : keyboard pi cosf sinf key st = some st2) :
    (st2.model = st.model ∨ st2.model = Mat4.identity ∨
      ∃ T : Mat4 K, T.bottomRowUnit ∧ st2.model = T.mul st.model) ∧
    (st2.fov = st.fov ∨ (key = '+' ∧ st2.fov = max 10 (st.fov - 2)) ∨
      (key = '-' ∧ st2.fov = min 150 (st.fov + 2))) := by
  unfold keyboard at hk
  by_cases h0 : key = Char.ofNat 27
  · rw [if_pos h0] at hk
    exact absurd hk (fun h => Option.noConfusion h)
  rw [if_neg h0] at hk
  by_cases h1 : key = 'o'
  · rw [if_pos h1] at hk
    injection hk with hk
    subst hk
    exact ⟨Or.inl rfl, Or.inl rfl⟩
  rw [if_neg h1] at hk
  by_cases h2 : key = 'p'
  · rw [if_pos h2] at hk
    injection hk with hk
    subst hk
    exact ⟨Or.inl rfl, Or.inl rfl⟩
  rw [if_neg h2] at hk
  by_cases h3 : key = '+'
  · rw [if_pos h3] at hk
    injection hk with hk
    subst hk
    exact ⟨Or.inl rfl, Or.inr (Or.inl ⟨h3, rfl⟩)⟩
  rw [if_neg h3] at hk
  by_cases h4 : key = '-'
  · rw [if_pos h4] at hk
    injection hk with hk
    subst hk
    exact ⟨Or.inl rfl, Or.inr (Or.inr ⟨h4, rfl⟩)⟩
  rw [if_neg h4] at hk
  by_cases h5 : key = 'x'
  · rw [if_pos h5] at hk
    injection hk with hk
    subst hk
    exact ⟨Or.inr (Or.inr ⟨_, rotateX_bottomRowUnit _ _ _ _, rfl⟩), Or.inl rfl⟩
  rw [if_neg h5] at hk
  by_cases h6 : key = 'X'
  · rw [if_pos h6] at hk
    injection hk with hk
    subst hk
    exact ⟨Or.inr (Or.inr ⟨_, rotateX_bottomRowUnit _ _ _ _, rfl⟩), Or.inl rfl⟩
  rw [if_neg h6] at hk
  by_cases h7 : key = 'y'
  · rw [if_pos h7] at hk
    injection hk with hk
    subst hk
    exact ⟨Or.inr (Or.inr ⟨_, rotateY_bottomRowUnit _ _ _ _, rfl⟩), Or.inl rfl⟩
  rw [if_neg h7] at hk
  by_cases h8 : key = 'Y'
  · rw [if_pos h8] at hk
    injection hk with hk
    subst hk
    exact ⟨Or.inr (Or.inr ⟨_, rotateY_bottomRowUnit _ _ _ _, rfl⟩), Or.inl rfl⟩
  rw [if_neg h8] at hk
  by_cases h9 : key = 'z'
  · rw [if_pos h9] at hk
    injection hk with hk
    subst hk
    exact ⟨Or.inr (Or.inr ⟨_, rotateZ_bottomRowUnit _ _ _ _, rfl⟩), Or.inl rfl⟩
  rw [if_neg h9] at hk
  by_cases h10 : key = 'Z'
  · rw [if_pos h10] at hk
    injection hk with hk
    subst hk
    exact ⟨Or.inr (Or.inr ⟨_, rotateZ_bottomRowUnit _ _ _ _, rfl⟩), Or.inl rfl⟩
  rw [if_neg h10] at hk
  by_cases h11 : key = 's'
  · rw [if_pos h11] at hk
    injection hk with hk
    subst hk
    exact ⟨Or.inr (Or.inr ⟨_, scaleM_bottomRowUnit _ _ _, rfl⟩), Or.inl rfl⟩
  rw [if_neg h11] at hk
  by_cases h12 : key = 'S'
  · rw [if_pos h12] at hk
    injection hk with hk
    subst hk
    exact ⟨Or.inr (Or.inr ⟨_, scaleM_bottomRowUnit _ _ _, rfl⟩), Or.inl rfl⟩
  rw [if_neg h12] at hk
  by_cases h13 : key = 'r'
  · rw [if_pos h13] at hk
    injection hk with hk
    subst hk
    exact ⟨Or.inr (Or.inl rfl), Or.inl rfl⟩
  rw [if_neg h13] at hk
  by_cases h14 : key = 'g'
  · rw [if_pos h14] at hk
    injection hk with hk
    subst hk
    exact ⟨Or.inl rfl, Or.inl rfl⟩
  rw [if_neg h14] at hk
  by_cases h15 : key = 'c'
  · rw [if_pos h15] at hk
    injection hk with hk
    subst hk
    exact ⟨Or.inl rfl, Or.inl rfl⟩
  rw [if_neg h15] at hk
  by_cases h16 : key = 'h'
  · rw [if_pos h16] at hk
    injection hk with hk
    subst hk
    exact ⟨Or.inl rfl, Or.inl rfl⟩
  rw [if_neg h16] at hk
  injection hk with hk
  subst hk
  exact ⟨Or.inl rfl, Or.inl rfl⟩

theorem keyboard_bottomRowUnit (pi : K) (cosf sinf : K → K) (key : Char) (st st2 : State K)
    (h : st.model.bottomRowUnit) (hk : keyboard pi cosf sinf key st = some st2) :
    st2.model.bottomRowUnit := by
  rcases (keyboard_cases pi cosf sinf key st st2 hk).1 with e | e | ⟨T, hT, e⟩
  · rw [e]; exact h
  · rw [e]; exact Mat4.bottomRowUnit_identity
  · rw [e]; exact Mat4.bottomRowUnit_mul hT h

theorem runEvents_bottomRowUnit (pi : K) (cosf sinf : K → K) (evs : List Event)
    (st st2 : State K) (h : st.model.bottomRowUnit)
    (hr : runEvents pi cosf sinf evs st = some st2) : st2.model.bottomRowUnit := by
  induction evs generalizing st with
  | nil =>
    simp only [runEvents, Option.some.injEq] at hr
    subst hr
    exact h
  | cons e es ih =>
    simp only [runEvents] at hr
    cases hs : step pi cosf sinf e st with
    | none => rw [hs] at hr; simp at hr
    | some st1 =>
      rw [hs] at hr
      apply ih st1 _ hr
      cases e with
      | key c => exact keyboard_bottomRowUnit pi cosf sinf c st st1 h hs
      | special k =>
        simp only [step, Option.some.injEq] at hs
        subst hs
        exact specialKey_bottomRowUnit k st h

/-- C17: starting from the identity, after any finite sequence of `keyboard` and
`specialKey` events the model matrix has bottom row `(0,0,0,1)`; consequently
`model * translate(..) * scaleM(..)` applied to any vertex built by `makeVec` has
`w = 1`, in particular the two model matrices that `display` passes to `renderObject`. -/
theorem model_bottom_row_invariant (pi : K) (cosf sinf : K → K) (evs : List Event)
    (st : State K) (hr : runEvents pi cosf sinf evs initialState = some st) :
    (st.model.m 3 0 = 0 ∧ st.model.m 3 1 = 0 ∧ st.model.m 3 2 = 0 ∧ st.model.m 3 3 = 1) ∧
    (∀ tx ty tz sx sy sz x y z : K,
      (((st.model.mul (translate tx ty tz)).mul (scaleM sx sy sz)).mulVec (makeVec x y z)).w = 1) ∧
    (∀ x y z : K, ((cubeModelMatrix st).mulVec (makeVec x y z)).w = 1) ∧
    (∀ x y z : K, ((pyramidModelMatrix st).mulVec (makeVec x y z)).w = 1) := by
  have h : st.model.bottomRowUnit :=
    runEvents_bottomRowUnit pi cosf sinf evs initialState st Mat4.bottomRowUnit_identity hr
  refine ⟨h, fun tx ty tz sx sy sz x y z => ?_, fun x y z => ?_, fun x y z => ?_⟩
  · exact Mat4.bottomRowUnit_mulVec_w (Mat4.bottomRowUnit_mul
      (Mat4.bottomRowUnit_mul h (translate_bottomRowUnit _ _ _)) (scaleM_bottomRowUnit _ _ _)) _
  · exact Mat4.bottomRowUnit_mulVec_w
      (Mat4.bottomRowUnit_mul h (translate_bottomRowUnit _ _ _)) _
  · exact Mat4.bottomRowUnit_mulVec_w (Mat4.bottomRowUnit_mul
      (Mat4.bottomRowUnit_mul h (translate_bottomRowUnit _ _ _)) (scaleM_bottomRowUnit _ _ _)) _

/-- Witness for C17: over the rationals, with constant stand-ins for `cosf` and
`sinf`, the events left-arrow, `s`, `z`, page-up lead to a state whose model matrix has
`m[3][3] = 1` and `m[3][0] = 0`. -/
theorem model_bottom_row_invariant_witness :
    ∃ st : State ℚ,
      runEvents (3 : ℚ) (fun _ => 1) (fun _ => 0)
        [Event.special GLUT_KEY_LEFT, Event.key 's', Event.key 'z',
         Event.special GLUT_KEY_PAGE_UP] initialState = some st ∧
      st.model.m 3 3 = 1 ∧ st.model.m 3 0 = 0 := by
  refine ⟨_, rfl, ?_, ?_⟩
  · exact (model_bottom_row_invariant (3 : ℚ) (fun _ => 1) (fun _ => 0)
      [Event.special GLUT_KEY_LEFT, Event.key 's', Event.key 'z',
       Event.special GLUT_KEY_PAGE_UP] _ rfl).1.2.2.2
  · exact (model_bottom_row_invariant (3 : ℚ) (fun _ => 1) (fun _ => 0)
      [Event.special GLUT_KEY_LEFT, Event.key 's', Event.key 'z',
       Event.special GLUT_KEY_PAGE_UP] _ rfl).1.1

theorem keyboard_fov_range (pi : K) (cosf sinf : K → K) (key : Char) (st st2 : State K)
    (h : 10 ≤ st.fov ∧ st.fov ≤ 150) (hk : keyboard pi cosf sinf key st = some st2) :
    10 ≤ st2.fov ∧ st2.fov ≤ 150 := by
  rcases (keyboard_cases pi cosf sinf key st st2 hk).2 with e | ⟨_, e⟩ | ⟨_, e⟩
  · rw [e]; exact h
  · rw [e]
    exact ⟨le_max_left _ _, max_le (by norm_num) (by linarith [h.2])⟩
  · rw [e]
    exact ⟨le_min (by norm_num) (by linarith [h.1]), min_le_left _ _⟩

theorem keyboard_fov_unchanged (pi : K) (cosf sinf : K → K) (key : Char) (st st2 : State K)
    (h1 : key ≠ '+') (h2 : key ≠ '-') (hk : keyboard pi cosf sinf key st = some st2) :
    st2.fov = st.fov := by
  rcases (keyboard_cases pi cosf sinf key st st2 hk).2 with e | ⟨hp, _⟩ | ⟨hm, _⟩
  · exact e
  · exact absurd hp h1
  · exact absurd hm h2

theorem specialKey_fov (key : Int) (st : State K) : (specialKey key st).fov = st.fov := rfl

theorem runEvents_fov_range (pi : K) (cosf sinf : K → K) (evs : List Event)
    (st st2 : State K) (h : 10 ≤ st.fov ∧ st.fov ≤ 150)
    (hr : runEvents pi cosf sinf evs st = some st2) : 10 ≤ st2.fov ∧ st2.fov ≤ 150 := by
  induction evs generalizing st with
  | nil =>
    simp only [runEvents, Option.some.injEq] at hr
    subst hr
    exact h
  | cons e es ih =>
    simp only [runEvents] at hr
    cases hs : step pi cosf sinf e st with
    | none => rw [hs] at hr; simp at hr
    | some st1 =>
      rw [hs] at hr
      apply ih st1 _ hr
      cases e with
      | key c => exact keyboard_fov_range pi cosf sinf c st st1 h hs
      | special k =>
        simp only [step, Option.some.injEq] at hs
        subst hs
        rw [specialKey_fov]
        exact h

theorem initialState_fov_range : 10 ≤ (initialState : State K).fov ∧
    (initialState : State K).fov ≤ 150 := by
  simp only [initialState]
  constructor <;> norm_num

end Model

/-! ## The field of view, over the reals -/

/-- C20: starting from `fov = 60`, after any finite sequence of `keyboard` and
`specialKey` events `10 ≤ fov ≤ 150`, so the half angle lies strictly between 0 and 90
degrees and `tan(fov/2)` in `makePerspectiveMatrix` is positive with a non-zero
cosine; only the `+` and `-` keys change `fov`, every other key and every special key
leaves it unchanged. -/
theorem fov_invariant (evs : List Event) (st : State ℝ)
    (hr : runEvents Real.pi Real.cos Real.sin evs initialState = some st) :
    (10 ≤ st.fov ∧ st.fov ≤ 150) ∧
    (0 < st.fov * Real.pi / 180 / 2 ∧ st.fov * Real.pi / 180 / 2 < Real.pi / 2) ∧
    0 < Real.cos (st.fov * Real.pi / 180 / 2) ∧
    0 < Real.tan (st.fov * Real.pi / 180 / 2) ∧
    (∀ (key : Char) (s s2 : State ℝ), key ≠ '+' → key ≠ '-' →
      keyboard Real.pi Real.cos Real.sin key s = some s2 → s2.fov = s.fov) ∧
    (∀ (k : Int) (s : State ℝ), (specialKey k s).fov = s.fov) := by
  have h := runEvents_fov_range Real.pi Real.cos Real.sin evs initialState st
    initialState_fov_range hr
  have hpi := Real.pi_pos
  have a0 : 0 < st.fov * Real.pi / 180 / 2 := by
    have : 0 < st.fov := by linarith [h.1]
    positivity
  have a1 : st.fov * Real.pi / 180 / 2 < Real.pi / 2 := by
    nlinarith [h.2]
  refine ⟨h, ⟨a0, a1⟩, ?_, Real.tan_pos_of_pos_of_lt_pi_div_two a0 a1, ?_, ?_⟩
  · exact Real.cos_pos_of_mem_Ioo ⟨by linarith, a1⟩
  · exact fun key s s2 h1 h2 hk =>
      keyboard_fov_unchanged Real.pi Real.cos Real.sin key s s2 h1 h2 hk
  · exact fun k s => specialKey_fov k s

/-- Witness for C20: after the events `+`, `+`, left-arrow, `-`, `x` the state has a
field of view within `[10, 150]`. -/
theorem fov_invariant_witness :
    ∃ st : State ℝ,
      runEvents Real.pi Real.cos Real.sin
        [Event.key '+', Event.key '+', Event.special GLUT_KEY_LEFT, Event.key '-',
         Event.key 'x'] initialState = some st ∧
      10 ≤ st.fov ∧ st.fov ≤ 150 := by
  refine ⟨_, rfl, ?_⟩
  exact (fov_invariant
    [Event.key '+', Event.key '+', Event.special GLUT_KEY_LEFT, Event.key '-',
     Event.key 'x'] _ rfl).1

/-! ## Connectivity of the rasterized segment -/

theorem int_sign_cases (a : Int) : a.sign = -1 ∨ a.sign = 0 ∨ a.sign = 1 := by
  rcases lt_trichotomy a 0 with h | h | h
  · exact Or.inl (Int.sign_eq_neg_one_of_neg h)
  · exact Or.inr (Or.inl (by rw [h]; rfl))
  · exact Or.inr (Or.inr (Int.sign_eq_one_of_pos h))

section Connected
variable (K : Type) [LinearOrderedField K] [FloorRing K]

theorem roundf_ge_sub_half (u : K) : u - 1 / 2 ≤ (roundf u : K) := by
  unfold roundf
  split_ifs with h
  · have := Int.lt_floor_add_one (u + 1 / 2)
    linarith
  · exact Int.le_ceil _

theorem roundf_le_add_half (u : K) : (roundf u : K) ≤ u + 1 / 2 := by
  unfold roundf
  split_ifs with h
  · exact Int.floor_le _
  · have := Int.ceil_lt_add_one (u - 1 / 2)
    linarith

theorem roundf_sub_le_one {u v : K} (h : v - u < 1) : roundf v - roundf u ≤ 1 := by
  have h1 := roundf_le_add_half K v
  have h2 := roundf_ge_sub_half K u
  have h3 : ((roundf v - roundf u : Int) : K) < 2 := by
    push_cast
    linarith
  have h4 : roundf v - roundf u < 2 := by exact_mod_cast h3
  omega

theorem roundf_abs_sub_le_one {u v : K} (h : |v - u| < 1) : |roundf v - roundf u| ≤ 1 := by
  rw [abs_lt] at h
  rw [abs_le]
  constructor
  · have := roundf_sub_le_one K (show u - v < 1 by linarith)
    omega
  · exact roundf_sub_le_one K h.2

theorem axis_step_le_one (a0 a s : Int) (i : Nat) (hs : 0 < s) (ha : |a| ≤ s) :
    |roundf ((a0 : K) + ((i + 1 : Nat) : K) * (a : K) / (s : K))
      - roundf ((a0 : K) + (i : K) * (a : K) / (s : K))| ≤ 1 := by
  rcases eq_or_lt_of_le ha with he | hlt
  · subst he
    rw [roundf_dominant K a0 a (i + 1) hs, roundf_dominant K a0 a i hs]
    have e : a0 + ((i + 1 : Nat) : Int) * a.sign - (a0 + (i : Int) * a.sign) = a.sign := by
      push_cast
      ring
    rw [e]
    rcases int_sign_cases a with h | h | h <;> rw [h] <;> decide
  · apply roundf_abs_sub_le_one
    have hsK : (0 : K) < (s : K) := by exact_mod_cast hs
    have e : (a0 : K) + ((i + 1 : Nat) : K) * (a : K) / (s : K)
        - ((a0 : K) + (i : K) * (a : K) / (s : K)) = (a : K) / (s : K) := by
      push_cast
      field_simp
      ring
    rw [e, abs_div, abs_of_pos hsK, div_lt_one hsK]
    have : ((|a| : Int) : K) < (s : K) := by exact_mod_cast hlt
    rwa [Int.cast_abs] at this

theorem axis_step_dominant (a0 a : Int) (i j : Nat) (h : 0 < |a|)
    (he : roundf ((a0 : K) + (i : K) * (a : K) / ((|a| : Int) : K))
      = roundf ((a0 : K) + (j : K) * (a : K) / ((|a| : Int) : K))) : i = j := by
  rw [roundf_dominant K a0 a i h, roundf_dominant K a0 a j h] at he
  have hne : a ≠ 0 := by
    intro h0
    rw [h0] at h
    simp at h
  rcases int_sign_cases a with hs | hs | hs
  · rw [hs] at he
    omega
  · exact absurd (Int.sign_eq_zero_iff_zero.mp hs) hne
  · rw [hs] at he
    omega

theorem dda_point_injective (x0 y0 x1 y1 : Int) (h : 0 < max |x1 - x0| |y1 - y0|) (i j : Nat)
    (he : (roundf ((x0 : K) + (i : K) * ((x1 - x0 : Int) : K) / ((max |x1 - x0| |y1 - y0| : Int) : K)),
           roundf ((y0 : K) + (i : K) * ((y1 - y0 : Int) : K) / ((max |x1 - x0| |y1 - y0| : Int) : K)))
        = (roundf ((x0 : K) + (j : K) * ((x1 - x0 : Int) : K) / ((max |x1 - x0| |y1 - y0| : Int) : K)),
           roundf ((y0 : K) + (j : K) * ((y1 - y0 : Int) : K) / ((max |x1 - x0| |y1 - y0| : Int) : K)))) :
    i = j := by
  rw [Prod.mk.injEq] at he
  rcases max_choice |x1 - x0| |y1 - y0| with hm | hm
  · rw [hm] at he h
    exact axis_step_dominant K x0 (x1 - x0) i j h he.1
  · rw [hm] at he h
    exact axis_step_dominant K y0 (y1 - y0) i j h he.2

/-- C19: when `steps > 0`, any two consecutive points emitted by `drawLineDDA` are
distinct and differ by at most 1 in `x` and at most 1 in `y`; the emitted sequence is
8-connected and contains no pixel twice. -/
theorem drawLineDDA_eight_connected (x0 y0 x1 y1 : Int) (h : 0 < max |x1 - x0| |y1 - y0|) :
    (drawLineDDA K x0 y0 x1 y1).Nodup ∧
    ∀ i : Nat, i + 1 ≤ (max |x1 - x0| |y1 - y0|).toNat →
      ∃ p q : Int × Int,
        (drawLineDDA K x0 y0 x1 y1)[i]? = some p ∧
        (drawLineDDA K x0 y0 x1 y1)[i + 1]? = some q ∧
        p ≠ q ∧ |q.1 - p.1| ≤ 1 ∧ |q.2 - p.2| ≤ 1 := by
  constructor
  · rw [drawLineDDA_eq_map K _ _ _ _ h]
    apply List.Nodup.map_on _ (List.nodup_range _)
    intro i _ j _ hij
    exact dda_point_injective K x0 y0 x1 y1 h i j hij
  · intro i hi
    refine ⟨_, _, drawLineDDA_getElem? K x0 y0 x1 y1 h i (by omega),
      drawLineDDA_getElem? K x0 y0 x1 y1 h (i + 1) hi, ?_, ?_, ?_⟩
    · intro hpq
      have := dda_point_injective K x0 y0 x1 y1 h i (i + 1) hpq
      omega
    · exact axis_step_le_one K x0 (x1 - x0) _ i h (le_max_left _ _)
    · exact axis_step_le_one K y0 (y1 - y0) _ i h (le_max_right _ _)

/-- Witness for C19: on the segment (0,0)-(2,5) the points of index 2 and 3 are
distinct neighbours. -/
theorem drawLineDDA_eight_connected_witness :
    (drawLineDDA ℚ 0 0 2 5).Nodup ∧
    ∃ p q : Int × Int,
      (drawLineDDA ℚ 0 0 2 5)[2]? = some p ∧ (drawLineDDA ℚ 0 0 2 5)[3]? = some q ∧
      p ≠ q ∧ |q.1 - p.1| ≤ 1 ∧ |q.2 - p.2| ≤ 1 :=
  ⟨(drawLineDDA_eight_connected ℚ 0 0 2 5 (by decide)).1,
   (drawLineDDA_eight_connected ℚ 0 0 2 5 (by decide)).2 2 (by decide)⟩

end Connected

end Wireframe
